import Mathlib

/-!
Verification development for the caption-export server: a shallow embedding
of the caption timing/segmentation engine, the caption visibility model, the
frame-job planner, the frame pairing of the extraction/composition commands,
and the progress pipeline, together with theorems settling the specified
properties.  Times are modelled as exact rationals (JS numbers in the source
are IEEE doubles, but every constant involved is decimal and the properties
under study are order/arithmetic properties that hold identically over ℚ).
-/

/-! ## Shared helpers (src/src/transcription.ts) -/

/-- `clamp(value, min, max) = Math.min(Math.max(value, min), max)`. -/
def clamp (value lo hi : ℚ) : ℚ := min (max value lo) hi

/-- The floor of a rational, written through `num/den` so that it evaluates
by kernel reduction. -/
def ratFloor (q : ℚ) : ℤ := q.num / (q.den : ℤ)

/-- JS `Math.round` rounds half upwards (`Math.round(x) = ⌊x + 0.5⌋`, also
for negative `x`), which is exactly Mathlib's `round` on ℚ. -/
def jsRound (q : ℚ) : ℤ := ratFloor (q + 1 / 2)

lemma ratFloor_eq (q : ℚ) : ratFloor q = ⌊q⌋ := Rat.floor_def.symm

lemma jsRound_eq (q : ℚ) : jsRound q = round q := by
  rw [jsRound, ratFloor_eq, round_eq]

/-- `roundTo(value, 2) = Math.round(value * 100) / 100`. -/
def roundTo2 (v : ℚ) : ℚ := ((jsRound (v * 100) : ℤ) : ℚ) / 100

/-- `MIN_WORD_DURATION = 0.05` (50 ms). -/
def MIN_WORD_DURATION : ℚ := 0.05

/-- `MIN_SEGMENT_DURATION = 0.2` (200 ms). -/
def MIN_SEGMENT_DURATION : ℚ := 0.2

/-- A word timestamp record `{word, start, end}`.  The source field `end` is
a Lean keyword and is embedded as `stop`. -/
structure Word where
  word : String
  start : ℚ
  stop : ℚ
deriving DecidableEq

/-- A transcription segment `{text, start, end, words}` (`end` ↦ `stop`). -/
structure Segment where
  text : String
  start : ℚ
  stop : ℚ
  words : Option (List Word)
deriving DecidableEq

/-- The word list of a segment, `[]` when `words` is `null`. -/
def wordsOf (s : Segment) : List Word := s.words.getD []

/-! ## groupWordsByTiming (src/src/transcription.ts, lines 33-136) -/

/-- Constants of `groupWordsByTiming`. -/
def FAST_SPEECH_THRESHOLD : ℚ := 0.06

def NORMAL_SPEECH_THRESHOLD : ℚ := 0.12

def SLOW_SPEECH_THRESHOLD : ℚ := 0.2

def MAX_GROUP_DURATION : ℚ := 0.6

def MAX_WORDS_PER_GROUP : Nat := 4

def MIN_WORDS_PER_GROUP : Nat := 1

/-- A word group `{words, start, end, text}` (`end` ↦ `stop`). -/
structure WordGroup where
  words : List Word
  start : ℚ
  stop : ℚ
  text : String
deriving DecidableEq

/-- Word sanitation inside the grouping loop: round both endpoints to two
decimals and pad the end to the minimum word duration.  The
`Number.isFinite` fallbacks of the source are unreachable over ℚ. -/
def roundLoopWord (w : Word) : Word :=
  let rs := roundTo2 w.start
  let re0 := roundTo2 w.stop
  let re := if re0 - rs < MIN_WORD_DURATION then rs + MIN_WORD_DURATION else re0
  { word := w.word, start := rs, stop := re }

/-- Emission of a finished group: spans `[first.start,
max(last.end, first.start + MIN_SEGMENT_DURATION)]` with the word texts
joined by spaces.  The `getD` defaults are unreachable (call sites pass
nonempty groups). -/
def mkGroup (g : List Word) : WordGroup :=
  let gs := ((g.head?.map Word.start).getD 0)
  { words := g
    start := gs
    stop := max ((g.getLast?.map Word.stop).getD 0) (gs + MIN_SEGMENT_DURATION)
    text := String.intercalate " " (g.map Word.word) }

/-- `true` when the word text carries sentence-ending punctuation
(`/[.!?;:]/.test`). -/
def hasPunctuation (s : String) : Bool :=
  s.any fun c => c == '.' || c == '!' || c == '?' || c == ';' || c == ':'

/-- `true` when the word text carries a comma (`/,/.test`). -/
def hasComma (s : String) : Bool :=
  s.any fun c => c == ','

/-- The greedy grouping loop of `groupWordsByTiming`: the accumulator is the
mutable `currentGroup`; gap tests use the raw (un-rounded) timestamps of the
current and next word, exactly as the source does. -/
def groupLoop (timingThreshold : ℚ) : List Word → List Word → List WordGroup
  | acc, [] => if acc.isEmpty then [] else [mkGroup acc]
  | acc, w :: rest =>
    let rw := roundLoopWord w
    let acc' := acc ++ [rw]
    let force1 := hasPunctuation rw.word
    let should1 := !force1 && hasComma rw.word && decide (2 ≤ acc'.length)
    let groupStart := ((acc'.head?.map Word.start).getD 0)
    let should2 := decide (MAX_GROUP_DURATION ≤ rw.stop - groupStart)
    let should3 := decide (MAX_WORDS_PER_GROUP ≤ acc'.length)
    let gapFlags :=
      match rest with
      | nxt :: _ =>
        let gap := nxt.start - w.stop
        (decide (timingThreshold * 2 < gap),
          !decide (timingThreshold * 2 < gap) && decide (timingThreshold < gap)
            && decide (MIN_WORDS_PER_GROUP ≤ acc'.length))
      | [] => (true, false)
    if force1 || gapFlags.1 || should1 || should2 || should3 || gapFlags.2 then
      mkGroup acc' :: groupLoop timingThreshold [] rest
    else
      groupLoop timingThreshold acc' rest

/-- `groupWordsByTiming` (src/src/transcription.ts): estimate the average
positive inter-word gap over the first ten word boundaries (default 0.1 when
none is positive), map it to an adaptive timing threshold, then run the
greedy grouping loop. -/
def groupWordsByTiming (words : List Word) : List WordGroup :=
  match words with
  | [] => []
  | _ =>
    let gaps := ((words.zip words.tail).take 10).map fun p => p.2.start - p.1.stop
    let posGaps := gaps.filter fun g => decide (0 < g)
    let avgGap : ℚ := if 0 < posGaps.length then posGaps.sum / posGaps.length else 0.1
    let timingThreshold :=
      if avgGap < 0.05 then FAST_SPEECH_THRESHOLD
      else if avgGap < 0.1 then FAST_SPEECH_THRESHOLD + 0.02
      else if 0.25 < avgGap then SLOW_SPEECH_THRESHOLD
      else NORMAL_SPEECH_THRESHOLD
    groupLoop timingThreshold [] words

/-! ## normalizeSegments (src/src/transcription.ts, lines 138-218) -/

/-- Word sanitation inside `normalizeSegments`: pad the end to the minimum
word duration (`Number.isFinite` fallbacks unreachable over ℚ). -/
def sanitizeWord (w : Word) : Word :=
  if w.stop - w.start < MIN_WORD_DURATION then
    { w with stop := w.start + MIN_WORD_DURATION }
  else w

/-- Segment sanitation: pad the end to the minimum segment duration and
sanitize each word. -/
def sanitizeSegment (seg : Segment) : Segment :=
  let e :=
    if seg.stop - seg.start < MIN_SEGMENT_DURATION then
      seg.start + MIN_SEGMENT_DURATION
    else seg.stop
  { seg with stop := e, words := seg.words.map fun ws => ws.map sanitizeWord }

/-- The sort key relation of `.sort((a, b) => a.start - b.start)`. -/
def SegLE (a b : Segment) : Prop := a.start ≤ b.start

instance : DecidableRel SegLE := fun a b => inferInstanceAs (Decidable (a.start ≤ b.start))

instance : IsTotal Segment SegLE := ⟨fun a b => le_total a.start b.start⟩

instance : IsTrans Segment SegLE := ⟨fun _ _ _ h1 h2 => le_trans h1 h2⟩

/-- JS `Array.prototype.sort` is a stable sort; a stable sort by a total
preorder key is unique as a function, so it is embedded by (stable)
insertion sort on the `start` key. -/
def sortSegments (l : List Segment) : List Segment := List.insertionSort SegLE l

/-- Word bounding for a non-final word of a segment: clamp it into the swept
segment window, re-enforce the minimum duration against the window end and
round to two decimals. -/
def boundWordMid (lo hi : ℚ) (w : Word) : Word :=
  let ws := clamp w.start lo hi
  let we0 := clamp w.stop (ws + MIN_WORD_DURATION) hi
  let we := if we0 - ws < MIN_WORD_DURATION then min hi (ws + MIN_WORD_DURATION) else we0
  { w with start := roundTo2 ws, stop := roundTo2 we }

/-- Word bounding for the final word: its end is forced to the segment end
(`if (wordIndex === arr.length - 1) wordEnd = end`) before rounding. -/
def boundWordLast (lo hi : ℚ) (w : Word) : Word :=
  let ws := clamp w.start lo hi
  { w with start := roundTo2 ws, stop := roundTo2 hi }

/-- The per-word map of the sweep (`boundedWords`), with the last word
special-cased. -/
def boundWords (lo hi : ℚ) : List Word → List Word
  | [] => []
  | [w] => [boundWordLast lo hi w]
  | w :: rest => boundWordMid lo hi w :: boundWords lo hi rest

/-- `let start = Math.max(segment.start, cursor)` of the sweep. -/
def sweepStart0 (cursor : ℚ) (seg : Segment) : ℚ := max seg.start cursor

/-- The sweep's segment end after the minimum-duration padding and the cap
to the next sanitized start (`nextStart`) when that lies ahead. -/
def sweepEnd1 (cursor : ℚ) (nextStart : Option ℚ) (seg : Segment) : ℚ :=
  let start0 := sweepStart0 cursor seg
  let end0 := max seg.stop (start0 + MIN_SEGMENT_DURATION)
  match nextStart with
  | some nxt => if start0 < nxt then min end0 nxt else end0
  | none => end0

/-- The sweep's final (un-rounded) segment start: clamped into
`[0, duration]` when a total duration is known. -/
def sweepStart2 (dur : Option ℚ) (cursor : ℚ) (seg : Segment) : ℚ :=
  match dur with
  | some d => clamp (sweepStart0 cursor seg) 0 d
  | none => sweepStart0 cursor seg

/-- The sweep's final (un-rounded) segment end, which also becomes the new
cursor. -/
def sweepEnd2 (dur : Option ℚ) (cursor : ℚ) (nextStart : Option ℚ) (seg : Segment) : ℚ :=
  match dur with
  | some d =>
    clamp (sweepEnd1 cursor nextStart seg) (sweepStart2 dur cursor seg + MIN_SEGMENT_DURATION) d
  | none => sweepEnd1 cursor nextStart seg

/-- One step of the left-to-right sweep of `normalizeSegments`, for one
segment: the segment start is clamped to the cursor (the previous segment's
un-rounded final end), its end is padded to the minimum duration, capped to
the next sanitized start when that lies ahead, and clamped into
`[0, duration]` when a total duration is known; finally words are bounded
and words whose rounded start has no room before the (un-rounded) segment
end are dropped.  Returns the output segment together with the new
cursor. -/
def sweepStep (dur : Option ℚ) (cursor : ℚ) (nextStart : Option ℚ) (seg : Segment) :
    Segment × ℚ :=
  let start2 := sweepStart2 dur cursor seg
  let end2 := sweepEnd2 dur cursor nextStart seg
  ({ seg with
      start := roundTo2 start2
      stop := roundTo2 end2
      words := seg.words.map fun ws =>
        (boundWords start2 end2 ws).filter fun w => decide (w.start < end2) },
    end2)

/-- The sweep of `normalizeSegments` (`sanitized.map((segment, index) =>
...)` with the advancing `cursor` and `nextStart = sanitized[index + 1]?.start`). -/
def sweepSegments (dur : Option ℚ) : ℚ → List Segment → List Segment
  | _, [] => []
  | cursor, seg :: rest =>
    (sweepStep dur cursor (rest.head?.map Segment.start) seg).1
      :: sweepSegments dur (sweepStep dur cursor (rest.head?.map Segment.start) seg).2 rest

/-- `normalizeSegments` (src/src/transcription.ts): sanitize, sort by start,
then sweep with an advancing cursor.  A missing/non-finite `totalDuration`
is modelled by `none`. -/
def normalizeSegments (segments : List Segment) (totalDuration : Option ℚ) : List Segment :=
  sweepSegments totalDuration 0 (sortSegments (segments.map sanitizeSegment))

example :
    (groupWordsByTiming
        [⟨"hi", 0, 0.3⟩, ⟨"there", 0.32, 0.6⟩, ⟨"friend", 1.1, 1.4⟩]).map
        (fun g => (g.text, g.start, g.stop)) =
      [("hi there", 0, 0.6), ("friend", 1.1, 1.4)] := by with_unfolding_all decide

example :
    (normalizeSegments [⟨"a", 0, 0.2, none⟩, ⟨"b", 0.1, 0.3, none⟩] none).map
        (fun s => (s.start, s.stop)) =
      [(0, 0.1), (0.1, 0.3)] := by with_unfolding_all decide

example :
    (normalizeSegments [⟨"a", 0, 1, none⟩, ⟨"b", 1/250, 1, none⟩] none).map
        (fun s => (s.start, s.stop)) =
      [(0, 0), (0, 1)] := by with_unfolding_all decide

example :
    (normalizeSegments (normalizeSegments [⟨"a", 0, 1, none⟩, ⟨"b", 1/250, 1, none⟩] none)
        none).map (fun s => (s.start, s.stop)) =
      [(0, 0.2), (0.2, 1)] := by with_unfolding_all decide

/-! ## Caption overlay renderer (src/src/renderer/overlay-renderer.ts) -/

/-- `TIMING_BUFFER = 0.05` — the fixed lookahead buffer of both renderers
and of the visibility model. -/
def TIMING_BUFFER : ℚ := 0.05

/-- The per-word state record `{appear, activeStart, activeEnd, fade}`
(src/src/types.ts `CaptionWordState`). -/
structure CaptionWordState where
  appear : ℚ
  activeStart : ℚ
  activeEnd : ℚ
  fade : ℚ
deriving DecidableEq

/-- The caption-level display test of the DOM renderer's `updateCaptions`
(src/src/renderer/overlay-renderer.ts, lines 190-224): a caption is shown
exactly when the buffered time lies in the closed interval
`[dataset.start, dataset.end]`; each caption is tested independently of all
others (no scoring is involved). -/
def updateCaptionsDisplayed (sub : Segment) (currentTime : ℚ) : Bool :=
  let adjustedTime := currentTime + TIMING_BUFFER
  decide (sub.start ≤ adjustedTime) && decide (adjustedTime ≤ sub.stop)

/-- The per-word opacity/font-weight classification of the DOM renderer's
`updateCaptions` (overlay-renderer.ts, lines 201-219).  `wordStart/wordEnd`
are the word's `states.activeStart/activeEnd`; the parsed `appear` value is
never used by the classification. -/
def updateCaptionsWordState (st : CaptionWordState) (currentTime : ℚ) : ℚ × Nat :=
  let adjustedTime := currentTime + TIMING_BUFFER
  let wordStart := st.activeStart
  let wordEnd := st.activeEnd
  if wordStart ≤ adjustedTime ∧ adjustedTime ≤ wordEnd then (1, 700)
  else if wordStart - TIMING_BUFFER ≤ adjustedTime ∧ adjustedTime < wordStart then (0.5, 500)
  else if wordStart ≤ adjustedTime ∧ adjustedTime ≤ st.fade then (0.7, 600)
  else if adjustedTime < wordStart then (0.3, 400)
  else (0, 400)

/-- The per-word opacity/font-weight classification of the 2D-canvas
renderer `renderFrame` (src/lib/serverRenderFrame.js, lines 77-107): it
tests `active`, `aboutTo` and `appeared` against the word's own
`start`/`end` and has no fade test and no zero-opacity fallback. -/
def renderFrameWordState (w : Word) (currentTime : ℚ) : ℚ × Nat :=
  let buffer : ℚ := 0.05
  let t := currentTime + buffer
  if w.start ≤ t ∧ t ≤ w.stop then (1, 700)
  else if w.start - buffer ≤ t ∧ t < w.start then (0.5, 500)
  else if w.start ≤ t then (0.7, 600)
  else (0.3, 400)

/-! ## getVisibleSubtitles (src/lib/getVisibleSubtitles.js) -/

/-- A scored candidate: `{subtitle, score, hasActiveWord, activeWordCount,
earliestStart, latestEnd}`.  The JS initial values `Infinity`/`-Infinity`
of the running min/max are modelled by `none`. -/
structure Candidate where
  subtitle : Segment
  score : ℚ
  hasActiveWord : Bool
  activeWordCount : Nat
  earliestStart : Option ℚ
  latestEnd : Option ℚ
deriving DecidableEq

/-- Running minimum against the `Infinity` initial value. -/
def optMin : Option ℚ → ℚ → Option ℚ
  | none, x => some x
  | some a, x => some (min a x)

/-- Running maximum against the `-Infinity` initial value. -/
def optMax : Option ℚ → ℚ → Option ℚ
  | none, x => some x
  | some a, x => some (max a x)

/-- One step of the per-word scoring loop of `getVisibleSubtitles`
(lines 20-42): `+10` and the flag for an active word, `+5` for a word about
to appear within the buffer, `+2` for a word that ended at most 0.1 s ago. -/
def scanWord (adjustedTime : ℚ) (st : Candidate) (w : Word) : Candidate :=
  let isActive := adjustedTime ≥ w.start ∧ adjustedTime ≤ w.stop
  let hasAppeared := adjustedTime ≥ w.start
  let isAboutToAppear := adjustedTime ≥ w.start - TIMING_BUFFER ∧ adjustedTime < w.start
  let st' :=
    if isActive then
      { st with
        hasActiveWord := true
        activeWordCount := st.activeWordCount + 1
        score := st.score + 10 }
    else if isAboutToAppear then { st with score := st.score + 5 }
    else if hasAppeared then
      if adjustedTime - w.stop ≤ 0.1 then { st with score := st.score + 2 } else st
    else st
  { st' with
    earliestStart := optMin st'.earliestStart w.start
    latestEnd := optMax st'.latestEnd w.stop }

/-- The candidate produced for one subtitle (`subtitles.map(...)`,
lines 10-89).  A subtitle with word-level timing is scored per word and then
range-checked and given its bonuses; a plain caption is scored 50 in range,
10 in the pre-appear buffer, 0 otherwise.  The wildcard arm is unreachable:
the fold over a nonempty word list always sets the running min/max. -/
def evalCandidate (adjustedTime : ℚ) (sub : Segment) : Candidate :=
  let init : Candidate :=
    { subtitle := sub
      score := 0
      hasActiveWord := false
      activeWordCount := 0
      earliestStart := none
      latestEnd := none }
  match sub.words with
  | some ws =>
    if 0 < ws.length then
      let st := ws.foldl (scanWord adjustedTime) init
      match st.earliestStart, st.latestEnd with
      | some es, some le =>
        let isWithinSubtitleRange :=
          adjustedTime ≥ es - TIMING_BUFFER ∧ adjustedTime ≤ le + 0.1
        if ¬isWithinSubtitleRange then { st with score := 0 }
        else
          let s1 := if st.hasActiveWord then st.score + 100 else st.score
          let timeSinceStart := adjustedTime - es
          let s2 :=
            if timeSinceStart ≥ -TIMING_BUFFER ∧ timeSinceStart < 0.5 then s1 + 20 else s1
          { st with score := s2 }
      | _, _ => { st with score := 0 }
    else
      if sub.start ≤ adjustedTime ∧ adjustedTime ≤ sub.stop then
        { init with
          score := 50
          hasActiveWord := true
          earliestStart := some sub.start
          latestEnd := some sub.stop }
      else if sub.start - TIMING_BUFFER ≤ adjustedTime ∧ adjustedTime < sub.start then
        { init with
          score := 10
          earliestStart := some sub.start
          latestEnd := some sub.stop }
      else init
  | none =>
    if sub.start ≤ adjustedTime ∧ adjustedTime ≤ sub.stop then
      { init with
        score := 50
        hasActiveWord := true
        earliestStart := some sub.start
        latestEnd := some sub.stop }
    else if sub.start - TIMING_BUFFER ≤ adjustedTime ∧ adjustedTime < sub.start then
      { init with
        score := 10
        earliestStart := some sub.start
        latestEnd := some sub.stop }
    else init

/-- The sort comparator of `getVisibleSubtitles` (lines 91-100) as a `≤`
relation: `candLE a b` holds when the comparator places `a` no later than
`b` — active-word candidates first, then higher score, then the more recent
`earliestStart`.  (The `getD 0` default is irrelevant: every kept candidate
has its `earliestStart` set.) -/
def candLE (a b : Candidate) : Bool :=
  if a.hasActiveWord ≠ b.hasActiveWord then a.hasActiveWord
  else if a.score ≠ b.score then decide (b.score < a.score)
  else decide (b.earliestStart.getD 0 ≤ a.earliestStart.getD 0)

/-- `candLE` as a relation, for the stable sort. -/
def CandLEP (a b : Candidate) : Prop := candLE a b = true

instance : DecidableRel CandLEP := fun a b => inferInstanceAs (Decidable (candLE a b = true))

/-- `getVisibleSubtitles(subtitles, currentTime)`: score every subtitle at
the buffered time, keep the positively scored ones, stable-sort by the
comparator and return at most the single top candidate. -/
def getVisibleSubtitles (subtitles : List Segment) (currentTime : ℚ) : List Segment :=
  let adjustedTime := currentTime + TIMING_BUFFER
  let candidates :=
    ((subtitles.map (evalCandidate adjustedTime)).filter fun c => decide (0 < c.score))
  let sorted := List.insertionSort CandLEP candidates
  match sorted with
  | [] => []
  | c :: _ => [c.subtitle]

/-! ## Frame job planner (src/src/renderer/overlay-renderer.ts lines
307-316 and the parallel `captureFrames` chunk loop) -/

/-- A worker chunk `{id, start, end}` of frame indices (`end` ↦ `stop`). -/
structure Chunk where
  id : Nat
  start : Nat
  stop : Nat
deriving DecidableEq

/-- The chunk plan: `framesPerWorker = Math.ceil(totalFrames /
concurrency)`; for each worker index the range `[i*framesPerWorker,
min((i+1)*framesPerWorker, totalFrames))` is kept when its start lies below
`totalFrames`. -/
def planChunks (totalFrames concurrency : Nat) : List Chunk :=
  let framesPerWorker := (totalFrames + concurrency - 1) / concurrency
  (List.range concurrency).filterMap fun i =>
    if i * framesPerWorker < totalFrames then
      some ⟨i, i * framesPerWorker, min ((i + 1) * framesPerWorker) totalFrames⟩
    else none

/-! ## Extraction / composition commands (src/src/renderer/
frame-extractor.ts and src/dist/src/renderer/video-compositor.js) -/

/-- The argument vector of the FFmpeg frame-extraction command
(frame-extractor.ts, lines 39-46), before joining with spaces. -/
def extractFrameCommand (videoPath outputPattern : String) (fps : Nat) : List String :=
  ["ffmpeg",
    "-i", videoPath,
    "-vf", "fps=" ++ toString fps,
    "-q:v", "2",
    "-start_number", "0",
    outputPattern]

/-- The argument vector of the FFmpeg composition command
(video-compositor.js, lines 21-42), before joining with spaces. -/
def composeFinalVideoCommand
    (ffmpegPath videoFramesDir overlayFramesDir audioPath outputPath : String)
    (fps : Nat) : List String :=
  [ffmpegPath,
    "-framerate", toString fps,
    "-start_number", "1",
    "-i", videoFramesDir ++ "/video-frame-%06d.jpg",
    "-framerate", toString fps,
    "-start_number", "0",
    "-i", overlayFramesDir ++ "/overlay-%06d.png",
    "-i", audioPath,
    "-filter_complex", "[0:v][1:v]overlay=0:0",
    "-map", "0:v",
    "-map", "2:a:0?",
    "-c:v", "libx264",
    "-preset", "medium",
    "-crf", "23",
    "-pix_fmt", "yuv420p",
    "-c:a", "aac",
    "-b:a", "192k",
    "-shortest",
    "-y",
    outputPath]

/-- All values following a `-start_number` flag in an argument vector. -/
def startNumbers : List String → List String
  | [] => []
  | [_] => []
  | a :: b :: rest =>
    if a = "-start_number" then b :: startNumbers rest else startNumbers (b :: rest)

/-- Modelled from the FFmpeg image2 (de)muxer contract used by both
commands: a numbered-pattern input opened with start number `s` supplies, as
its `j`-th frame, the file carrying number `s + j`. -/
def inputFrameNumber (startNumber j : Nat) : Nat := startNumber + j

/-- The start number the extraction command writes video frames with. -/
def extractStartNumber : Nat := 0

/-- The start number the composition command reads video frames with. -/
def composeVideoStartNumber : Nat := 1

/-- The start number the composition command reads overlay frames with. -/
def composeOverlayStartNumber : Nat := 0

/-- The timestamp of extracted video frame number `n`: extraction runs at
`fps` frames per second and numbers frames from `extractStartNumber`, so
file `n` holds the source frame at `(n - extractStartNumber) / fps`
seconds. -/
def extractedFrameTimestamp (n : Nat) (fps : ℚ) : ℚ :=
  ((n - extractStartNumber : Nat) : ℚ) / fps

/-- The timestamp overlay frame `k` is rendered for: `currentTime =
i * frameInterval` with `frameInterval = 1 / fps`
(overlay-renderer.ts, lines 319 and 342-346). -/
def overlayFrameTimestamp (k : Nat) (fps : ℚ) : ℚ := (k : ℚ) * (1 / fps)

/-! ## Progress pipeline (src/unnamed/part_004 `/render` route,
src/unnamed/part_005 progress store) -/

/-- The extraction-stage progress mapping of the `/render` route:
`10 + progress * 0.2`. -/
def mapExtractionProgress (p : ℚ) : ℚ := 10 + p * 0.2

/-- The overlay-stage progress mapping: `30 + progress * 0.4`. -/
def mapOverlayProgress (p : ℚ) : ℚ := 30 + p * 0.4

/-- The composition-stage progress mapping: `70 + progress * 0.25`. -/
def mapCompositionProgress (p : ℚ) : ℚ := 70 + p * 0.25

/-- The sequence of `(percent, stage)` pairs published through
`setProgress` on a successful `/render` run, in source order: the fixed
updates of the route interleaved with the three stages' mapped callback
sequences (`ps1`: extraction callbacks, `ps2`: overlay-rendering callbacks,
`ps3`: composition callbacks, each a stage-local fraction in `[0, 1]`). -/
def renderSuccessTrace (ps1 ps2 ps3 : List ℚ) : List (ℚ × String) :=
  [((0 : ℚ), "initialization"), ((5 : ℚ), "initialization")]
    ++ ps1.map (fun p => (mapExtractionProgress p, "video processing"))
    ++ [((30 : ℚ), "video processing"), ((30 : ℚ), "caption rendering")]
    ++ ps2.map (fun p => (mapOverlayProgress p, "caption rendering"))
    ++ [((70 : ℚ), "caption rendering"), ((70 : ℚ), "encoding")]
    ++ ps3.map (fun p => (mapCompositionProgress p, "encoding"))
    ++ [((95 : ℚ), "finalizing"), ((100 : ℚ), "complete")]

/-- A failed run: the route publishes some prefix of the success trace (the
failure interrupts the pipeline at an arbitrary point) and the `catch`
block then publishes the terminal `(100, "error")` update. -/
def renderErrorTrace (ps1 ps2 ps3 : List ℚ) (n : Nat) : List (ℚ × String) :=
  (renderSuccessTrace ps1 ps2 ps3).take n ++ [((100 : ℚ), "error")]

/-! ## Rounding and clamping lemmas -/

lemma roundTo2_mono {a b : ℚ} (h : a ≤ b) : roundTo2 a ≤ roundTo2 b := by
  unfold roundTo2
  rw [jsRound_eq, jsRound_eq]
  have hr : round (a * 100) ≤ round (b * 100) := by
    rw [round_eq, round_eq]
    exact Int.floor_le_floor (by linarith)
  gcongr


lemma roundTo2_add_int_div (x : ℚ) (k : ℤ) :
    roundTo2 (x + (k : ℚ) / 100) = roundTo2 x + (k : ℚ) / 100 := by
  unfold roundTo2
  rw [jsRound_eq, jsRound_eq]
  have h : (x + (k : ℚ) / 100) * 100 = x * 100 + (k : ℚ) := by ring
  rw [h, round_add_int]
  push_cast
  ring

lemma roundTo2_int_div (k : ℤ) : roundTo2 ((k : ℚ) / 100) = (k : ℚ) / 100 := by
  unfold roundTo2
  rw [jsRound_eq]
  have h : ((k : ℚ) / 100) * 100 = (k : ℚ) := by field_simp
  rw [h, round_intCast]

lemma roundTo2_idem (v : ℚ) : roundTo2 (roundTo2 v) = roundTo2 v :=
  roundTo2_int_div (jsRound (v * 100))

lemma roundTo2_zero : roundTo2 0 = 0 := by
  have := roundTo2_int_div 0
  simpa using this

lemma roundTo2_nonneg {x : ℚ} (h : 0 ≤ x) : 0 ≤ roundTo2 x := by
  have := roundTo2_mono h
  rwa [roundTo2_zero] at this

lemma roundTo2_add_minSeg (x : ℚ) :
    roundTo2 (x + MIN_SEGMENT_DURATION) = roundTo2 x + MIN_SEGMENT_DURATION := by
  have h20 : MIN_SEGMENT_DURATION = ((20 : ℤ) : ℚ) / 100 := by
    norm_num [MIN_SEGMENT_DURATION]
  rw [h20, roundTo2_add_int_div]

lemma roundTo2_add_minWord (x : ℚ) :
    roundTo2 (x + MIN_WORD_DURATION) = roundTo2 x + MIN_WORD_DURATION := by
  have h5 : MIN_WORD_DURATION = ((5 : ℤ) : ℚ) / 100 := by
    norm_num [MIN_WORD_DURATION]
  rw [h5, roundTo2_add_int_div]

lemma clamp_eq_self {v lo hi : ℚ} (h1 : lo ≤ v) (h2 : v ≤ hi) : clamp v lo hi = v := by
  simp [clamp, max_eq_left h1, min_eq_left h2]

lemma clamp_le_right (v lo hi : ℚ) : clamp v lo hi ≤ hi := min_le_right _ _

lemma clamp_le_of_le {v lo hi b : ℚ} (h1 : v ≤ b) (h2 : lo ≤ b) : clamp v lo hi ≤ b :=
  le_trans (min_le_left _ _) (max_le h1 h2)

lemma le_clamp_of_le {v lo hi b : ℚ} (h1 : b ≤ v ∨ b ≤ lo) (h2 : b ≤ hi) : b ≤ clamp v lo hi := by
  refine le_min ?_ h2
  rcases h1 with h | h
  · exact le_trans h (le_max_left _ _)
  · exact le_trans h (le_max_right _ _)

/-! ## C1, C2, C7, C10 -/

/-- C1: composition does **not** pair overlay frames with video frames 1:1
by timestamp.  The extraction command numbers video frames from 0 while the
composition command reads the video-frame sequence from start number 1 (the
overlay sequence from 0), so overlay frame `k` — rendered for timestamp
`k/fps` — is composited onto the extracted video frame numbered `k + 1`,
whose timestamp is `(k+1)/fps`, at the pipeline's fixed `fps = 30`. -/
theorem claim_C1_bug :
    startNumbers (extractFrameCommand "video.mp4" "frames/video-frame-%06d.jpg" 30) = ["0"]
    ∧ startNumbers
        (composeFinalVideoCommand "ffmpeg" "vframes" "overlays" "audio.mp4" "out.mp4" 30) =
        ["1", "0"]
    ∧ (∀ k : Nat, inputFrameNumber composeVideoStartNumber k = k + 1)
    ∧ (∀ k : Nat,
        extractedFrameTimestamp (inputFrameNumber composeVideoStartNumber k) 30 ≠
          overlayFrameTimestamp (inputFrameNumber composeOverlayStartNumber k) 30) := by
  refine ⟨by with_unfolding_all decide, by with_unfolding_all decide, ?_, ?_⟩
  · intro k
    simp [inputFrameNumber, composeVideoStartNumber, Nat.add_comm]
  · intro k h
    unfold extractedFrameTimestamp overlayFrameTimestamp inputFrameNumber
      extractStartNumber composeVideoStartNumber composeOverlayStartNumber at h
    simp only [Nat.sub_zero, Nat.zero_add] at h
    push_cast at h
    linarith

/-- C2: the two rasterizer backends do **not** compute identical word
animation state.  For the word timing record with `activeStart = start = 0`,
`activeEnd = end = 1`, `appear = -0.05`, `fade = 1.5` and
`currentTime = 1.95` (buffered time 2), the DOM renderer's `updateCaptions`
classifies the word as faded out (opacity 0, weight 400) while the
2D-canvas renderer's `renderFrame` — which omits the fade test and the
zero-opacity fallback — classifies it as appeared (opacity 0.7, weight
600). -/
theorem claim_C2_bug :
    updateCaptionsWordState ⟨-(0.05 : ℚ), 0, 1, 1.5⟩ 1.95 = (0, 400)
    ∧ renderFrameWordState ⟨"over", 0, 1⟩ 1.95 = (0.7, 600)
    ∧ updateCaptionsWordState ⟨-(0.05 : ℚ), 0, 1, 1.5⟩ 1.95 ≠
        renderFrameWordState ⟨"over", 0, 1⟩ 1.95 := by
  refine ⟨by with_unfolding_all decide, by with_unfolding_all decide,
    by with_unfolding_all decide⟩

/-- C7: on the word list `[{"hi",0.00,0.30}, {"there",0.32,0.60},
{"friend",1.10,1.40}]` the word-grouping segmenter produces exactly the two
segments `["hi there", 0.00, 0.60]` and `["friend", 1.10, 1.40]`: the
0.02 s gap does not split the first group and the 0.50 s gap forces the
split before "friend". -/
theorem claim_C7 :
    (groupWordsByTiming [⟨"hi", 0, 0.3⟩, ⟨"there", 0.32, 0.6⟩, ⟨"friend", 1.1, 1.4⟩]).map
        (fun g => (g.text, g.start, g.stop)) =
      [("hi there", 0, 0.6), ("friend", 1.1, 1.4)] := by
  with_unfolding_all decide

/-- C10: the DOM overlay renderer displays a caption exactly when the
buffered time `t + 0.05` lies in the closed interval `[start, end]`,
independently of any scoring; consequently two segments sharing a boundary
(as `normalizeSegments` produces, e.g. on `[{0,0.15},{0.15,0.4}]`) are both
displayed in the frame whose buffered time equals the shared boundary
(frame 3 at 30 fps, buffered time 0.15). -/
theorem claim_C10 :
    (∀ sub : Segment, ∀ t : ℚ, updateCaptionsDisplayed sub t = true ↔
      sub.start ≤ t + TIMING_BUFFER ∧ t + TIMING_BUFFER ≤ sub.stop)
    ∧ (∀ s1 s2 : Segment, ∀ t : ℚ, s1.stop = s2.start → t + TIMING_BUFFER = s1.stop →
        s1.start ≤ s1.stop → s2.start ≤ s2.stop →
        updateCaptionsDisplayed s1 t = true ∧ updateCaptionsDisplayed s2 t = true)
    ∧ ((normalizeSegments [⟨"a", 0, 0.15, none⟩, ⟨"b", 0.15, 0.4, none⟩] none).map
          (fun s => (s.start, s.stop)) = [(0, 0.15), (0.15, 0.4)]
        ∧ ∀ s ∈ normalizeSegments [⟨"a", 0, 0.15, none⟩, ⟨"b", 0.15, 0.4, none⟩] none,
            updateCaptionsDisplayed s (3 * (1 / 30)) = true) := by
  have hiff : ∀ sub : Segment, ∀ t : ℚ, updateCaptionsDisplayed sub t = true ↔
      sub.start ≤ t + TIMING_BUFFER ∧ t + TIMING_BUFFER ≤ sub.stop := by
    intro sub t
    simp [updateCaptionsDisplayed]
  refine ⟨hiff, ?_, by with_unfolding_all decide, by with_unfolding_all decide⟩
  intro s1 s2 t h12 hb h1 h2
  constructor
  · exact (hiff s1 t).mpr ⟨by linarith, by linarith⟩
  · exact (hiff s2 t).mpr ⟨by linarith, by linarith⟩

/-- Witness for C10: two captions sharing the boundary 2 are both displayed
at `currentTime = 1.95` (buffered time 2). -/
theorem claim_C10_witness :
    updateCaptionsDisplayed ⟨"x", 0, 2, none⟩ 1.95 = true
    ∧ updateCaptionsDisplayed ⟨"y", 2, 3, none⟩ 1.95 = true :=
  claim_C10.2.1 ⟨"x", 0, 2, none⟩ ⟨"y", 2, 3, none⟩ 1.95 (by norm_num)
    (by norm_num [TIMING_BUFFER]) (by norm_num) (by norm_num)

/-! ## Frame planner lemmas and C8 -/

lemma planChunks_mem {tf c : Nat} {ch : Chunk} :
    ch ∈ planChunks tf c ↔
      ∃ i, i < c ∧ i * ((tf + c - 1) / c) < tf ∧
        ch = ⟨i, i * ((tf + c - 1) / c), min ((i + 1) * ((tf + c - 1) / c)) tf⟩ := by
  simp only [planChunks, List.mem_filterMap, List.mem_range,
    Option.ite_none_right_eq_some, Option.some.injEq]
  constructor
  · rintro ⟨i, hi, hlt, rfl⟩
    exact ⟨i, hi, hlt, rfl⟩
  · rintro ⟨i, hi, hlt, rfl⟩
    exact ⟨i, hi, hlt, rfl⟩

lemma lt_div_succ_mul (a b : Nat) (hb : 0 < b) : a < (a / b + 1) * b := by
  have h1 := Nat.div_add_mod a b
  have h2 := Nat.mod_lt a hb
  have h3 : (a / b + 1) * b = b * (a / b) + b := by ring
  rw [h3]
  omega

lemma ceil_div_cover (tf c : Nat) (hc : 1 ≤ c) : tf ≤ c * ((tf + c - 1) / c) := by
  rcases Nat.eq_zero_or_pos tf with h | h
  · simp [h]
  · have hlt := lt_div_succ_mul (tf + c - 1) c hc
    have heq : ((tf + c - 1) / c + 1) * c = c * ((tf + c - 1) / c) + c := by ring
    rw [heq] at hlt
    generalize c * ((tf + c - 1) / c) = m at *
    omega

lemma ceil_div_pos {tf c : Nat} (hc : 1 ≤ c) (htf : 0 < tf) : 1 ≤ (tf + c - 1) / c :=
  (Nat.one_le_div_iff hc).mpr (by omega)

lemma planChunks_aux_nil (tf f i0 n : Nat) (h : tf ≤ i0 * f) :
    ((List.range' i0 n).filterMap fun i =>
      if i * f < tf then some (⟨i, i * f, min ((i + 1) * f) tf⟩ : Chunk) else none) = [] := by
  rw [List.filterMap_eq_nil_iff]
  intro i hi
  have h1 : i0 ≤ i := (List.mem_range'_1.mp hi).1
  have h2 : tf ≤ i * f := le_trans h (Nat.mul_le_mul_right f h1)
  simp [Nat.not_lt.mpr h2]

lemma planChunks_aux_chain (tf f : Nat) : ∀ (n i0 : Nat),
    List.Chain' (fun a b : Chunk => a.stop = b.start)
      ((List.range' i0 n).filterMap fun i =>
        if i * f < tf then some (⟨i, i * f, min ((i + 1) * f) tf⟩ : Chunk) else none)
    ∧ ∀ ch : Chunk,
        (((List.range' i0 n).filterMap fun i =>
          if i * f < tf then some (⟨i, i * f, min ((i + 1) * f) tf⟩ : Chunk) else none).head? =
            some ch) → ch.start = i0 * f := by
  intro n
  induction n with
  | zero => intro i0; simp
  | succ m ih =>
    intro i0
    rw [List.range'_succ, List.filterMap_cons]
    by_cases h0 : i0 * f < tf
    · simp only [if_pos h0]
      rcases ih (i0 + 1) with ⟨ihc, ihh⟩
      refine ⟨List.chain'_cons'.mpr ⟨?_, ihc⟩, ?_⟩
      · intro y hy
        have hys := ihh y hy
        have hne : ((List.range' (i0 + 1) m).filterMap fun i =>
            if i * f < tf then some (⟨i, i * f, min ((i + 1) * f) tf⟩ : Chunk) else none) ≠ [] := by
          intro hnil
          rw [hnil] at hy
          simp at hy
        have hlt : (i0 + 1) * f < tf := by
          by_contra hge
          exact hne (planChunks_aux_nil tf f (i0 + 1) m (Nat.le_of_not_lt hge))
        simp only [hys]
        simp [min_eq_left (Nat.le_of_lt hlt)]
      · intro ch hch
        simp only [List.head?_cons, Option.some.injEq] at hch
        rw [← hch]
    · simp only [if_neg h0]
      have hge : tf ≤ i0 * f := Nat.le_of_not_lt h0
      rw [planChunks_aux_nil tf f (i0 + 1) m
        (le_trans hge (Nat.mul_le_mul_right f (Nat.le_succ i0)))]
      exact ⟨List.chain'_nil, by intro ch hch; simp at hch⟩

lemma planChunks_eq_aux (tf c : Nat) :
    planChunks tf c =
      ((List.range' 0 c).filterMap fun i =>
        if i * ((tf + c - 1) / c) < tf then
          some (⟨i, i * ((tf + c - 1) / c), min ((i + 1) * ((tf + c - 1) / c)) tf⟩ : Chunk)
        else none) := by
  rw [planChunks, List.range_eq_range']

/-- C8: for every `totalFrames ≥ 0` and `concurrency ≥ 1` the planned worker
chunks cover every index of `[0, totalFrames)` exactly once, are contiguous
and nonempty, have size `ceil(totalFrames / concurrency)` except for a last
range truncated at `totalFrames`, and the concrete plan for
`concurrency = 4, totalFrames = 10` is `[0,3),[3,6),[6,9),[9,10)`. -/
theorem claim_C8 (tf c : Nat) (hc : 1 ≤ c) :
    (∀ k, (∃ ch ∈ planChunks tf c, ch.start ≤ k ∧ k < ch.stop) ↔ k < tf)
    ∧ (∀ ch1 ∈ planChunks tf c, ∀ ch2 ∈ planChunks tf c,
        (∃ k, ch1.start ≤ k ∧ k < ch1.stop ∧ ch2.start ≤ k ∧ k < ch2.stop) → ch1 = ch2)
    ∧ (∀ ch ∈ planChunks tf c, ch.start < ch.stop ∧
        (ch.stop = ch.start + (tf + c - 1) / c ∨ ch.stop = tf))
    ∧ List.Chain' (fun a b : Chunk => a.stop = b.start) (planChunks tf c)
    ∧ (planChunks 10 4).map (fun ch => (ch.start, ch.stop)) = [(0, 3), (3, 6), (6, 9), (9, 10)] := by
  have hcover := ceil_div_cover tf c hc
  refine ⟨?_, ?_, ?_, ?_, by with_unfolding_all decide⟩
  · intro k
    constructor
    · rintro ⟨ch, hch, hk1, hk2⟩
      rcases planChunks_mem.mp hch with ⟨i, _, _, rfl⟩
      exact lt_of_lt_of_le hk2 (min_le_right _ _)
    · intro hk
      have htf : 0 < tf := lt_of_le_of_lt (Nat.zero_le k) hk
      have hf : 0 < (tf + c - 1) / c := ceil_div_pos hc htf
      refine ⟨⟨k / ((tf + c - 1) / c),
        k / ((tf + c - 1) / c) * ((tf + c - 1) / c),
        min ((k / ((tf + c - 1) / c) + 1) * ((tf + c - 1) / c)) tf⟩, ?_, ?_, ?_⟩
      · refine planChunks_mem.mpr ⟨k / ((tf + c - 1) / c), ?_, ?_, rfl⟩
        · exact (Nat.div_lt_iff_lt_mul hf).mpr (lt_of_lt_of_le hk (by linarith [hcover]))
        · exact lt_of_le_of_lt (Nat.div_mul_le_self k _) hk
      · exact Nat.div_mul_le_self k _
      · exact lt_min (lt_div_succ_mul k _ hf) hk
  · rintro ch1 h1 ch2 h2 ⟨k, hk1, hk2, hk3, hk4⟩
    rcases planChunks_mem.mp h1 with ⟨i, _, _, rfl⟩
    rcases planChunks_mem.mp h2 with ⟨j, _, _, rfl⟩
    dsimp only at hk1 hk2 hk3 hk4
    have hij : i = j := by
      rcases lt_trichotomy i j with h | h | h
      · exfalso
        have hle : (i + 1) * ((tf + c - 1) / c) ≤ j * ((tf + c - 1) / c) :=
          Nat.mul_le_mul_right _ h
        have := lt_of_lt_of_le hk2 (min_le_left _ _)
        omega
      · exact h
      · exfalso
        have hle : (j + 1) * ((tf + c - 1) / c) ≤ i * ((tf + c - 1) / c) :=
          Nat.mul_le_mul_right _ h
        have := lt_of_lt_of_le hk4 (min_le_left _ _)
        omega
    rw [hij]
  · intro ch hch
    rcases planChunks_mem.mp hch with ⟨i, _, histart, rfl⟩
    have htf : 0 < tf := lt_of_le_of_lt (Nat.zero_le _) histart
    have hf : 0 < (tf + c - 1) / c := ceil_div_pos hc htf
    dsimp only
    constructor
    · refine lt_min ?_ histart
      have : (i + 1) * ((tf + c - 1) / c) = i * ((tf + c - 1) / c) + (tf + c - 1) / c :=
        Nat.succ_mul i _
      omega
    · rcases le_total ((i + 1) * ((tf + c - 1) / c)) tf with h | h
      · left
        rw [min_eq_left h, Nat.succ_mul]
      · right
        rw [min_eq_right h]
  · rw [planChunks_eq_aux]
    exact (planChunks_aux_chain tf ((tf + c - 1) / c) c 0).1

/-- Witness for C8 at `totalFrames = 10`, `concurrency = 4`: index 7 is
covered by a planned chunk. -/
theorem claim_C8_witness :
    1 ≤ 4 ∧ ((∃ ch ∈ planChunks 10 4, ch.start ≤ 7 ∧ 7 < ch.stop) ↔ 7 < 10) :=
  ⟨by decide, (claim_C8 10 4 (by decide)).1 7⟩

/-! ## Progress pipeline lemmas and C9 -/

lemma mem_pair_iff {α : Type*} {x a b : α} : x ∈ [a, b] ↔ x = a ∨ x = b := by simp

lemma chain_glue {l₁ l₂ : List (ℚ × String)} (B : ℚ)
    (h₁ : List.Chain' (fun a b : ℚ × String => a.1 ≤ b.1) l₁)
    (h₂ : List.Chain' (fun a b : ℚ × String => a.1 ≤ b.1) l₂)
    (hb₁ : ∀ x ∈ l₁, x.1 ≤ B) (hb₂ : ∀ y ∈ l₂, B ≤ y.1) :
    List.Chain' (fun a b : ℚ × String => a.1 ≤ b.1) (l₁ ++ l₂) := by
  refine h₁.append h₂ ?_
  intro x hx y hy
  have := hb₁ x (List.mem_of_mem_getLast? hx)
  have := hb₂ y (List.mem_of_mem_head? hy)
  linarith

lemma chain_map_stage (ps : List ℚ) (f : ℚ → ℚ) (st : String)
    (hf : ∀ a b : ℚ, a ≤ b → f a ≤ f b) (h : List.Chain' (· ≤ ·) ps) :
    List.Chain' (fun a b : ℚ × String => a.1 ≤ b.1) (ps.map fun p => (f p, st)) := by
  rw [List.chain'_map]
  exact h.imp fun a b hab => hf a b hab

lemma stage_bounds {ps : List ℚ} (f : ℚ → ℚ) (st : String) (lo hi : ℚ)
    (hb : ∀ p ∈ ps, 0 ≤ p ∧ p ≤ 1) (hf : ∀ p : ℚ, 0 ≤ p → p ≤ 1 → lo ≤ f p ∧ f p ≤ hi) :
    ∀ x ∈ ps.map fun p => (f p, st), lo ≤ x.1 ∧ x.1 ≤ hi := by
  intro x hx
  rcases List.mem_map.mp hx with ⟨p, hp, rfl⟩
  exact hf p (hb p hp).1 (hb p hp).2

/-- C9: across the sequence of progress updates published for one export id
by the `/render` pipeline — modelled as the source-ordered interleaving of
the route's fixed `setProgress` calls with the three stages' mapped
callback values, each stage callback sequence being a nondecreasing
sequence of local fractions in `[0, 1]` — the percent never decreases and
the final update carries percent 100, with stage `complete` on success and
stage `error` on failure (the failure case publishes an arbitrary prefix
followed by the terminal error update). -/
theorem claim_C9 (ps1 ps2 ps3 : List ℚ) (n : Nat)
    (hm1 : List.Chain' (· ≤ ·) ps1) (hb1 : ∀ p ∈ ps1, 0 ≤ p ∧ p ≤ 1)
    (hm2 : List.Chain' (· ≤ ·) ps2) (hb2 : ∀ p ∈ ps2, 0 ≤ p ∧ p ≤ 1)
    (hm3 : List.Chain' (· ≤ ·) ps3) (hb3 : ∀ p ∈ ps3, 0 ≤ p ∧ p ≤ 1) :
    List.Chain' (fun a b : ℚ × String => a.1 ≤ b.1) (renderSuccessTrace ps1 ps2 ps3)
    ∧ (renderSuccessTrace ps1 ps2 ps3).getLast? = some (100, "complete")
    ∧ List.Chain' (fun a b : ℚ × String => a.1 ≤ b.1) (renderErrorTrace ps1 ps2 ps3 n)
    ∧ (renderErrorTrace ps1 ps2 ps3 n).getLast? = some (100, "error") := by
  have hb1' := stage_bounds mapExtractionProgress "video processing" 10 10.2
    hb1 (by intro p h0 h1; unfold mapExtractionProgress; constructor <;> nlinarith)
  have hb2' := stage_bounds mapOverlayProgress "caption rendering" 30 30.4
    hb2 (by intro p h0 h1; unfold mapOverlayProgress; constructor <;> nlinarith)
  have hb3' := stage_bounds mapCompositionProgress "encoding" 70 70.25
    hb3 (by intro p h0 h1; unfold mapCompositionProgress; constructor <;> nlinarith)
  have hc1 := chain_map_stage ps1 mapExtractionProgress "video processing"
    (fun a b hab => by unfold mapExtractionProgress; nlinarith) hm1
  have hc2 := chain_map_stage ps2 mapOverlayProgress "caption rendering"
    (fun a b hab => by unfold mapOverlayProgress; nlinarith) hm2
  have hc3 := chain_map_stage ps3 mapCompositionProgress "encoding"
    (fun a b hab => by unfold mapCompositionProgress; nlinarith) hm3
  have htail3 : List.Chain' (fun a b : ℚ × String => a.1 ≤ b.1)
      (ps3.map (fun p => (mapCompositionProgress p, "encoding"))
        ++ [((95 : ℚ), "finalizing"), ((100 : ℚ), "complete")]) := by
    refine chain_glue 95 hc3 (List.chain'_pair.mpr (by norm_num)) ?_ ?_
    · intro x hx; linarith [(hb3' x hx).2]
    · intro y hy
      rcases mem_pair_iff.mp hy with rfl | rfl <;> norm_num
  have htail2 : List.Chain' (fun a b : ℚ × String => a.1 ≤ b.1)
      ([((70 : ℚ), "caption rendering"), ((70 : ℚ), "encoding")]
        ++ (ps3.map (fun p => (mapCompositionProgress p, "encoding"))
          ++ [((95 : ℚ), "finalizing"), ((100 : ℚ), "complete")])) := by
    refine chain_glue 70 (List.chain'_pair.mpr (by norm_num)) htail3 ?_ ?_
    · intro x hx
      rcases mem_pair_iff.mp hx with rfl | rfl <;> norm_num
    · intro y hy
      rcases List.mem_append.mp hy with h | h
      · exact (hb3' y h).1
      · rcases mem_pair_iff.mp h with rfl | rfl <;> norm_num
  have htail2b : List.Chain' (fun a b : ℚ × String => a.1 ≤ b.1)
      (ps2.map (fun p => (mapOverlayProgress p, "caption rendering"))
        ++ ([((70 : ℚ), "caption rendering"), ((70 : ℚ), "encoding")]
          ++ (ps3.map (fun p => (mapCompositionProgress p, "encoding"))
            ++ [((95 : ℚ), "finalizing"), ((100 : ℚ), "complete")]))) := by
    refine chain_glue 70 hc2 htail2 ?_ ?_
    · intro x hx; linarith [(hb2' x hx).2]
    · intro y hy
      rcases List.mem_append.mp hy with h | h
      · rcases mem_pair_iff.mp h with rfl | rfl <;> norm_num
      · rcases List.mem_append.mp h with h | h
        · exact (hb3' y h).1
        · rcases mem_pair_iff.mp h with rfl | rfl <;> norm_num
  have htail1 : List.Chain' (fun a b : ℚ × String => a.1 ≤ b.1)
      ([((30 : ℚ), "video processing"), ((30 : ℚ), "caption rendering")]
        ++ (ps2.map (fun p => (mapOverlayProgress p, "caption rendering"))
          ++ ([((70 : ℚ), "caption rendering"), ((70 : ℚ), "encoding")]
            ++ (ps3.map (fun p => (mapCompositionProgress p, "encoding"))
              ++ [((95 : ℚ), "finalizing"), ((100 : ℚ), "complete")])))) := by
    refine chain_glue 30 (List.chain'_pair.mpr (by norm_num)) htail2b ?_ ?_
    · intro x hx
      rcases mem_pair_iff.mp hx with rfl | rfl <;> norm_num
    · intro y hy
      rcases List.mem_append.mp hy with h | h
      · exact (hb2' y h).1
      · rcases List.mem_append.mp h with h | h
        · rcases mem_pair_iff.mp h with rfl | rfl <;> norm_num
        · rcases List.mem_append.mp h with h | h
          · linarith [(hb3' y h).1]
          · rcases mem_pair_iff.mp h with rfl | rfl <;> norm_num
  have htail1b : List.Chain' (fun a b : ℚ × String => a.1 ≤ b.1)
      (ps1.map (fun p => (mapExtractionProgress p, "video processing"))
        ++ ([((30 : ℚ), "video processing"), ((30 : ℚ), "caption rendering")]
          ++ (ps2.map (fun p => (mapOverlayProgress p, "caption rendering"))
            ++ ([((70 : ℚ), "caption rendering"), ((70 : ℚ), "encoding")]
              ++ (ps3.map (fun p => (mapCompositionProgress p, "encoding"))
                ++ [((95 : ℚ), "finalizing"), ((100 : ℚ), "complete")]))))) := by
    refine chain_glue 30 hc1 htail1 ?_ ?_
    · intro x hx; linarith [(hb1' x hx).2]
    · intro y hy
      rcases List.mem_append.mp hy with h | h
      · rcases mem_pair_iff.mp h with rfl | rfl <;> norm_num
      · rcases List.mem_append.mp h with h | h
        · linarith [(hb2' y h).1]
        · rcases List.mem_append.mp h with h | h
          · rcases mem_pair_iff.mp h with rfl | rfl <;> norm_num
          · rcases List.mem_append.mp h with h | h
            · linarith [(hb3' y h).1]
            · rcases mem_pair_iff.mp h with rfl | rfl <;> norm_num
  have hsucc : List.Chain' (fun a b : ℚ × String => a.1 ≤ b.1)
      (renderSuccessTrace ps1 ps2 ps3) := by
    have hfull := chain_glue 10
      (List.chain'_pair.mpr (by norm_num) :
        List.Chain' (fun a b : ℚ × String => a.1 ≤ b.1)
          [((0 : ℚ), "initialization"), ((5 : ℚ), "initialization")]) htail1b
      (by
        intro x hx
        rcases mem_pair_iff.mp hx with rfl | rfl <;> norm_num)
      (by
        intro y hy
        rcases List.mem_append.mp hy with h | h
        · exact (hb1' y h).1
        · rcases List.mem_append.mp h with h | h
          · rcases mem_pair_iff.mp h with rfl | rfl <;> norm_num
          · rcases List.mem_append.mp h with h | h
            · linarith [(hb2' y h).1]
            · rcases List.mem_append.mp h with h | h
              · rcases mem_pair_iff.mp h with rfl | rfl <;> norm_num
              · rcases List.mem_append.mp h with h | h
                · linarith [(hb3' y h).1]
                · rcases mem_pair_iff.mp h with rfl | rfl <;> norm_num)
    have heq : renderSuccessTrace ps1 ps2 ps3 =
        [((0 : ℚ), "initialization"), ((5 : ℚ), "initialization")]
          ++ (ps1.map (fun p => (mapExtractionProgress p, "video processing"))
            ++ ([((30 : ℚ), "video processing"), ((30 : ℚ), "caption rendering")]
              ++ (ps2.map (fun p => (mapOverlayProgress p, "caption rendering"))
                ++ ([((70 : ℚ), "caption rendering"), ((70 : ℚ), "encoding")]
                  ++ (ps3.map (fun p => (mapCompositionProgress p, "encoding"))
                    ++ [((95 : ℚ), "finalizing"), ((100 : ℚ), "complete")]))))) := by
      simp [renderSuccessTrace, List.append_assoc]
    rw [heq]
    exact hfull
  have hub : ∀ x ∈ renderSuccessTrace ps1 ps2 ps3, x.1 ≤ 100 := by
    intro x hx
    unfold renderSuccessTrace at hx
    simp only [List.mem_append] at hx
    rcases hx with ((((((h | h) | h) | h) | h) | h) | h)
    · rcases mem_pair_iff.mp h with rfl | rfl <;> norm_num
    · linarith [(hb1' x h).2]
    · rcases mem_pair_iff.mp h with rfl | rfl <;> norm_num
    · linarith [(hb2' x h).2]
    · rcases mem_pair_iff.mp h with rfl | rfl <;> norm_num
    · linarith [(hb3' x h).2]
    · rcases mem_pair_iff.mp h with rfl | rfl <;> norm_num
  have hlast : (renderSuccessTrace ps1 ps2 ps3).getLast? = some (100, "complete") := by
    unfold renderSuccessTrace
    rw [List.getLast?_append]
    rfl
  refine ⟨hsucc, hlast, ?_, ?_⟩
  · refine chain_glue 100 (hsucc.take n) (List.chain'_singleton _) ?_ ?_
    · intro x hx
      exact hub x (List.mem_of_mem_take hx)
    · intro y hy
      simp only [List.mem_singleton] at hy
      rw [hy]
  · exact List.getLast?_concat _

/-- Witness for C9 on concrete stage callback sequences. -/
theorem claim_C9_witness :
    List.Chain' (fun a b : ℚ × String => a.1 ≤ b.1) (renderSuccessTrace [0.5, 1] [0.25] [])
    ∧ (renderSuccessTrace [0.5, 1] [0.25] []).getLast? = some (100, "complete")
    ∧ List.Chain' (fun a b : ℚ × String => a.1 ≤ b.1) (renderErrorTrace [0.5, 1] [0.25] [] 3)
    ∧ (renderErrorTrace [0.5, 1] [0.25] [] 3).getLast? = some (100, "error") :=
  claim_C9 [0.5, 1] [0.25] [] 3
    (List.chain'_pair.mpr (by norm_num))
    (by intro p hp; rcases mem_pair_iff.mp hp with rfl | rfl <;> norm_num)
    (List.chain'_singleton _)
    (by intro p hp; simp only [List.mem_singleton] at hp; rw [hp]; norm_num)
    List.chain'_nil
    (by intro p hp; simp at hp)

/-! ## Sweep invariants and C5 -/

lemma minSeg_pos : (0 : ℚ) < MIN_SEGMENT_DURATION := by norm_num [MIN_SEGMENT_DURATION]

lemma minWord_pos : (0 : ℚ) < MIN_WORD_DURATION := by norm_num [MIN_WORD_DURATION]

/-- The value the cursor is effectively bounded by: when a total duration is
known every swept end is capped at it. -/
def durClamp (dur : Option ℚ) (c : ℚ) : ℚ :=
  match dur with
  | some d => min c d
  | none => c

lemma sweepStart0_ge_cursor (cursor : ℚ) (seg : Segment) : cursor ≤ sweepStart0 cursor seg :=
  le_max_right _ _

lemma sweepStart0_le_end1 (cursor : ℚ) (nxt : Option ℚ) (seg : Segment) :
    sweepStart0 cursor seg ≤ sweepEnd1 cursor nxt seg := by
  unfold sweepEnd1
  have h0 : sweepStart0 cursor seg ≤
      max seg.stop (sweepStart0 cursor seg + MIN_SEGMENT_DURATION) :=
    le_trans (by linarith [minSeg_pos]) (le_max_right _ _)
  rcases nxt with _ | n
  · exact h0
  · dsimp only
    split_ifs with h
    · exact le_min h0 (le_of_lt h)
    · exact h0

lemma durClamp_le_start2 (dur : Option ℚ) (cursor : ℚ) (seg : Segment) :
    durClamp dur cursor ≤ sweepStart2 dur cursor seg := by
  rcases dur with _ | d
  · exact sweepStart0_ge_cursor cursor seg
  · dsimp [durClamp, sweepStart2, clamp]
    refine le_min ?_ (min_le_right _ _)
    exact le_trans (min_le_left _ _)
      (le_trans (sweepStart0_ge_cursor cursor seg) (le_max_left _ _))

lemma start2_le_end2 (dur : Option ℚ) (cursor : ℚ) (nxt : Option ℚ) (seg : Segment) :
    sweepStart2 dur cursor seg ≤ sweepEnd2 dur cursor nxt seg := by
  rcases dur with _ | d
  · exact sweepStart0_le_end1 cursor nxt seg
  · dsimp [sweepStart2, sweepEnd2, clamp]
    refine le_min ?_ (min_le_right _ _)
    exact le_trans (by linarith [minSeg_pos]) (le_max_right _ _)

lemma durClamp_end2 (dur : Option ℚ) (cursor : ℚ) (nxt : Option ℚ) (seg : Segment) :
    durClamp dur (sweepEnd2 dur cursor nxt seg) = sweepEnd2 dur cursor nxt seg := by
  rcases dur with _ | d
  · rfl
  · dsimp [durClamp, sweepEnd2, clamp]
    exact min_eq_left (min_le_right _ _)

lemma sweepSegments_facts (dur : Option ℚ) :
    ∀ (l : List Segment) (cursor : ℚ),
      (∀ s, (sweepSegments dur cursor l).head? = some s →
        roundTo2 (durClamp dur cursor) ≤ s.start)
      ∧ List.Chain' (fun a b : Segment => a.stop ≤ b.start) (sweepSegments dur cursor l)
      ∧ ∀ s ∈ sweepSegments dur cursor l, s.start ≤ s.stop := by
  intro l
  induction l with
  | nil =>
    intro cursor
    refine ⟨?_, ?_, ?_⟩ <;> simp [sweepSegments]
  | cons seg rest ih =>
    intro cursor
    have hstep1 : (sweepStep dur cursor ((rest.head?).map Segment.start) seg).1.start =
        roundTo2 (sweepStart2 dur cursor seg) := rfl
    have hstep2 : (sweepStep dur cursor ((rest.head?).map Segment.start) seg).1.stop =
        roundTo2 (sweepEnd2 dur cursor ((rest.head?).map Segment.start) seg) := rfl
    have hstep3 : (sweepStep dur cursor ((rest.head?).map Segment.start) seg).2 =
        sweepEnd2 dur cursor ((rest.head?).map Segment.start) seg := rfl
    have hunfold : sweepSegments dur cursor (seg :: rest) =
        (sweepStep dur cursor ((rest.head?).map Segment.start) seg).1 ::
          sweepSegments dur (sweepStep dur cursor ((rest.head?).map Segment.start) seg).2 rest :=
      rfl
    rcases ih (sweepStep dur cursor ((rest.head?).map Segment.start) seg).2 with ⟨ihh, ihc, ihm⟩
    refine ⟨?_, ?_, ?_⟩
    · intro s hs
      rw [hunfold] at hs
      simp only [List.head?_cons, Option.some.injEq] at hs
      rw [← hs, hstep1]
      exact roundTo2_mono (durClamp_le_start2 dur cursor seg)
    · rw [hunfold]
      refine List.chain'_cons'.mpr ⟨?_, ihc⟩
      intro y hy
      have hyy := ihh y hy
      rw [hstep3, durClamp_end2] at hyy
      rw [hstep2]
      exact hyy
    · intro s hs
      rw [hunfold] at hs
      rcases List.mem_cons.mp hs with rfl | hs
      · rw [hstep1, hstep2]
        exact roundTo2_mono (start2_le_end2 dur cursor _ seg)
      · exact ihm s hs

/-- C5: for every input segment list (and any optional total duration) the
output of `normalizeSegments` is ordered and pairwise non-overlapping: every
segment's start is at most its end, and each segment's end is at most the
next segment's start. -/
theorem claim_C5 (segments : List Segment) (totalDuration : Option ℚ) :
    List.Chain' (fun a b : Segment => a.stop ≤ b.start)
        (normalizeSegments segments totalDuration)
    ∧ ∀ s ∈ normalizeSegments segments totalDuration, s.start ≤ s.stop :=
  ⟨(sweepSegments_facts totalDuration (sortSegments (segments.map sanitizeSegment)) 0).2.1,
    (sweepSegments_facts totalDuration (sortSegments (segments.map sanitizeSegment)) 0).2.2⟩

/-! ## C3: minimum segment duration -/

lemma sweepSegments_minDur (dur : Option ℚ) :
    ∀ (l : List Segment) (cursor : ℚ),
      (∀ s ∈ l, 0 ≤ s.start) →
      List.Chain' (fun a b : Segment => a.start + MIN_SEGMENT_DURATION ≤ b.start) l →
      (∀ d, dur = some d → ∀ s ∈ l, s.start + MIN_SEGMENT_DURATION ≤ d) →
      (∀ s, l.head? = some s → cursor ≤ s.start) →
      ∀ s ∈ sweepSegments dur cursor l, MIN_SEGMENT_DURATION ≤ s.stop - s.start := by
  intro l
  induction l with
  | nil =>
    intro cursor _ _ _ _ s hs
    simp [sweepSegments] at hs
  | cons seg rest ih =>
    intro cursor hz hchain hd hc
    have hcs : cursor ≤ seg.start := hc seg rfl
    have hzs : 0 ≤ seg.start := hz seg (by simp)
    have hstart0 : sweepStart0 cursor seg = seg.start := max_eq_left hcs
    have hstart2 : sweepStart2 dur cursor seg = seg.start := by
      rcases dur with _ | d
      · exact hstart0
      · have hsd : seg.start ≤ d := by
          have := hd d rfl seg (by simp)
          linarith [minSeg_pos]
        dsimp [sweepStart2]
        rw [hstart0]
        exact clamp_eq_self hzs hsd
    have hend1lo : seg.start + MIN_SEGMENT_DURATION ≤
        sweepEnd1 cursor ((rest.head?).map Segment.start) seg := by
      rcases rest with _ | ⟨r, t⟩
      · dsimp [sweepEnd1]
        rw [hstart0]
        exact le_max_right _ _
      · have hsep : seg.start + MIN_SEGMENT_DURATION ≤ r.start :=
          (List.chain'_cons.mp hchain).1
        dsimp [sweepEnd1]
        rw [hstart0, if_pos (by linarith [minSeg_pos])]
        exact le_min (le_max_right _ _) hsep
    have hend2lo : seg.start + MIN_SEGMENT_DURATION ≤
        sweepEnd2 dur cursor ((rest.head?).map Segment.start) seg := by
      rcases dur with _ | d
      · exact hend1lo
      · dsimp [sweepEnd2, clamp]
        rw [hstart2]
        refine le_min (le_trans ?_ (le_max_right _ _)) (hd d rfl seg (by simp))
        exact le_refl _
    have hend2hi : ∀ r t, rest = r :: t →
        sweepEnd2 dur cursor ((rest.head?).map Segment.start) seg ≤ r.start := by
      intro r t hrt
      subst hrt
      have hsep : seg.start + MIN_SEGMENT_DURATION ≤ r.start :=
        (List.chain'_cons.mp hchain).1
      have hend1hi : sweepEnd1 cursor (((r :: t).head?).map Segment.start) seg ≤ r.start := by
        dsimp [sweepEnd1]
        rw [hstart0, if_pos (by linarith [minSeg_pos])]
        exact min_le_right _ _
      rcases dur with _ | d
      · exact hend1hi
      · dsimp [sweepEnd2, clamp]
        rw [hstart2]
        refine le_trans (min_le_left _ _) ?_
        have h1 : seg.start + MIN_SEGMENT_DURATION ≤ sweepEnd1 cursor (some r.start) seg := by
          simpa using hend1lo
        rw [max_eq_left h1]
        simpa using hend1hi
    intro s hs
    have hunfold : sweepSegments dur cursor (seg :: rest) =
        (sweepStep dur cursor ((rest.head?).map Segment.start) seg).1 ::
          sweepSegments dur (sweepStep dur cursor ((rest.head?).map Segment.start) seg).2 rest :=
      rfl
    rw [hunfold] at hs
    rcases List.mem_cons.mp hs with rfl | hs
    · show MIN_SEGMENT_DURATION ≤
        roundTo2 (sweepEnd2 dur cursor ((rest.head?).map Segment.start) seg) -
          roundTo2 (sweepStart2 dur cursor seg)
      have h1 : roundTo2 (sweepStart2 dur cursor seg) + MIN_SEGMENT_DURATION ≤
          roundTo2 (sweepEnd2 dur cursor ((rest.head?).map Segment.start) seg) := by
        rw [← roundTo2_add_minSeg]
        refine roundTo2_mono ?_
        rw [hstart2]
        exact hend2lo
      linarith
    · refine ih (sweepStep dur cursor ((rest.head?).map Segment.start) seg).2
        (fun x hx => hz x (List.mem_cons_of_mem _ hx)) hchain.tail
        (fun d hdd x hx => hd d hdd x (List.mem_cons_of_mem _ hx)) ?_ s hs
      intro x hx
      rcases rest with _ | ⟨r, t⟩
      · simp at hx
      · simp only [List.head?_cons, Option.some.injEq] at hx
        rw [← hx]
        exact hend2hi r t rfl

/-- Counterexample for C3 as stated: on the input `[{0, 0.2}, {0.1, 0.3}]`
with no total duration, the first output segment of `normalizeSegments` is
`[0, 0.1]`, of duration 0.1 < MIN_SEGMENT_DURATION. -/
theorem claim_C3_counterexample :
    ¬ ∀ s ∈ normalizeSegments [⟨"a", 0, 0.2, none⟩, ⟨"b", 0.1, 0.3, none⟩] none,
        MIN_SEGMENT_DURATION ≤ s.stop - s.start := by
  with_unfolding_all decide

/-- C3 (amended): every segment returned by `normalizeSegments` has
duration at least `MIN_SEGMENT_DURATION` (0.2 s), provided the sanitized,
sorted segments have nonnegative starts, consecutive starts at least
`MIN_SEGMENT_DURATION` apart (so the cap at the next segment's start cannot
undercut the minimum), and a total duration — when given — of at least
every such start plus `MIN_SEGMENT_DURATION`. -/
theorem claim_C3 (segments : List Segment) (dur : Option ℚ)
    (h0 : ∀ s ∈ sortSegments (segments.map sanitizeSegment), 0 ≤ s.start)
    (hsep : List.Chain' (fun a b : Segment => a.start + MIN_SEGMENT_DURATION ≤ b.start)
      (sortSegments (segments.map sanitizeSegment)))
    (hdur : ∀ d, dur = some d → ∀ s ∈ sortSegments (segments.map sanitizeSegment),
      s.start + MIN_SEGMENT_DURATION ≤ d) :
    ∀ s ∈ normalizeSegments segments dur, MIN_SEGMENT_DURATION ≤ s.stop - s.start :=
  sweepSegments_minDur dur (sortSegments (segments.map sanitizeSegment)) 0 h0 hsep hdur
    (fun s hs => h0 s (List.mem_of_mem_head? hs))

/-- Witness for C3 on a well-separated concrete input. -/
theorem claim_C3_witness :
    (normalizeSegments [⟨"a", 0, 0.5, none⟩, ⟨"b", 1, 1.2, none⟩] none).length = 2 ∧
    ∀ s ∈ normalizeSegments [⟨"a", 0, 0.5, none⟩, ⟨"b", 1, 1.2, none⟩] none,
      MIN_SEGMENT_DURATION ≤ s.stop - s.start := by
  refine ⟨by with_unfolding_all decide, ?_⟩
  have hL : sortSegments ([⟨"a", 0, 0.5, none⟩, ⟨"b", 1, 1.2, none⟩].map sanitizeSegment) =
      [⟨"a", 0, 0.5, none⟩, ⟨"b", 1, 1.2, none⟩] := by with_unfolding_all decide
  refine claim_C3 [⟨"a", 0, 0.5, none⟩, ⟨"b", 1, 1.2, none⟩] none ?_ ?_ ?_
  · rw [hL]
    intro s hs
    rcases mem_pair_iff.mp hs with rfl | rfl <;> norm_num
  · rw [hL]
    exact List.chain'_pair.mpr (by norm_num [MIN_SEGMENT_DURATION])
  · intro d h
    exact absurd h (by simp)

/-! ## Output invariants of the sweep (toward C4) -/

lemma sweepSegments_forall (dur : Option ℚ) (C : ℚ → Prop) (P : Segment → Prop)
    (hstep : ∀ cursor nxt seg, C cursor → P (sweepStep dur cursor nxt seg).1)
    (hnext : ∀ cursor nxt seg, C cursor → C (sweepStep dur cursor nxt seg).2) :
    ∀ (l : List Segment) (cursor : ℚ), C cursor →
      ∀ s ∈ sweepSegments dur cursor l, P s := by
  intro l
  induction l with
  | nil =>
    intro cursor _ s hs
    simp [sweepSegments] at hs
  | cons seg rest ih =>
    intro cursor hcur s hs
    have hunfold : sweepSegments dur cursor (seg :: rest) =
        (sweepStep dur cursor ((rest.head?).map Segment.start) seg).1 ::
          sweepSegments dur (sweepStep dur cursor ((rest.head?).map Segment.start) seg).2 rest :=
      rfl
    rw [hunfold] at hs
    rcases List.mem_cons.mp hs with rfl | hs
    · exact hstep _ _ _ hcur
    · exact ih _ (hnext _ _ _ hcur) s hs

lemma sweepStep_words (dur : Option ℚ) (c : ℚ) (nxt : Option ℚ) (seg : Segment) :
    wordsOf (sweepStep dur c nxt seg).1 =
      (seg.words.map fun ws =>
        (boundWords (sweepStart2 dur c seg) (sweepEnd2 dur c nxt seg) ws).filter
          fun w => decide (w.start < sweepEnd2 dur c nxt seg)).getD [] := rfl

lemma boundWords_round (lo hi : ℚ) :
    ∀ ws, ∀ w ∈ boundWords lo hi ws,
      roundTo2 w.start = w.start ∧ roundTo2 w.stop = w.stop := by
  intro ws
  induction ws with
  | nil => intro w hw; simp [boundWords] at hw
  | cons a t ih =>
    intro w hw
    cases t with
    | nil =>
      simp only [boundWords, List.mem_singleton] at hw
      subst hw
      exact ⟨roundTo2_idem _, roundTo2_idem _⟩
    | cons b t2 =>
      have hw' : w ∈ boundWordMid lo hi a :: boundWords lo hi (b :: t2) := hw
      rcases List.mem_cons.mp hw' with rfl | hw2
      · exact ⟨roundTo2_idem _, roundTo2_idem _⟩
      · exact ih w hw2

lemma boundWordMid_facts (lo hi : ℚ) (hlohi : lo ≤ hi) (w : Word) :
    roundTo2 lo ≤ (boundWordMid lo hi w).start
    ∧ (boundWordMid lo hi w).stop ≤ roundTo2 hi
    ∧ ((boundWordMid lo hi w).start + MIN_WORD_DURATION ≤ (boundWordMid lo hi w).stop ∨
        (boundWordMid lo hi w).stop = roundTo2 hi) := by
  have hlo : lo ≤ clamp w.start lo hi := le_clamp_of_le (Or.inr (le_refl lo)) hlohi
  show roundTo2 lo ≤ roundTo2 (clamp w.start lo hi) ∧ _ ∧ _
  refine ⟨roundTo2_mono hlo, ?_, ?_⟩ <;> unfold boundWordMid <;> dsimp only <;>
    split_ifs with hcase
  · exact roundTo2_mono (min_le_left _ _)
  · exact roundTo2_mono (clamp_le_right _ _ _)
  · rcases le_total hi (clamp w.start lo hi + MIN_WORD_DURATION) with h | h
    · right
      rw [min_eq_left h]
    · left
      rw [min_eq_right h, roundTo2_add_minWord]
  · left
    have hge : clamp w.start lo hi + MIN_WORD_DURATION ≤
        clamp w.stop (clamp w.start lo hi + MIN_WORD_DURATION) hi := by linarith
    calc roundTo2 (clamp w.start lo hi) + MIN_WORD_DURATION
        = roundTo2 (clamp w.start lo hi + MIN_WORD_DURATION) := (roundTo2_add_minWord _).symm
      _ ≤ roundTo2 (clamp w.stop (clamp w.start lo hi + MIN_WORD_DURATION) hi) :=
          roundTo2_mono hge

lemma boundWordLast_facts (lo hi : ℚ) (hlohi : lo ≤ hi) (w : Word) :
    roundTo2 lo ≤ (boundWordLast lo hi w).start
    ∧ (boundWordLast lo hi w).stop ≤ roundTo2 hi
    ∧ ((boundWordLast lo hi w).start + MIN_WORD_DURATION ≤ (boundWordLast lo hi w).stop ∨
        (boundWordLast lo hi w).stop = roundTo2 hi) := by
  have hlo : lo ≤ clamp w.start lo hi := le_clamp_of_le (Or.inr (le_refl lo)) hlohi
  exact ⟨roundTo2_mono hlo, le_refl _, Or.inr rfl⟩

lemma boundWords_bounds (lo hi : ℚ) (hlohi : lo ≤ hi) :
    ∀ ws, ∀ w ∈ boundWords lo hi ws,
      roundTo2 lo ≤ w.start ∧ w.stop ≤ roundTo2 hi ∧
        (w.start + MIN_WORD_DURATION ≤ w.stop ∨ w.stop = roundTo2 hi) := by
  intro ws
  induction ws with
  | nil => intro w hw; simp [boundWords] at hw
  | cons a t ih =>
    intro w hw
    cases t with
    | nil =>
      simp only [boundWords, List.mem_singleton] at hw
      subst hw
      exact boundWordLast_facts lo hi hlohi a
    | cons b t2 =>
      have hw' : w ∈ boundWordMid lo hi a :: boundWords lo hi (b :: t2) := hw
      rcases List.mem_cons.mp hw' with rfl | hw2
      · exact boundWordMid_facts lo hi hlohi a
      · exact ih w hw2

lemma normalize_round (dur : Option ℚ) (l : List Segment) (cursor : ℚ) :
    ∀ s ∈ sweepSegments dur cursor l,
      roundTo2 s.start = s.start ∧ roundTo2 s.stop = s.stop ∧
        ∀ w ∈ wordsOf s, roundTo2 w.start = w.start ∧ roundTo2 w.stop = w.stop := by
  refine sweepSegments_forall dur (fun _ => True) _ ?_ (fun _ _ _ _ => trivial) l cursor trivial
  intro c nxt seg _
  refine ⟨roundTo2_idem _, roundTo2_idem _, ?_⟩
  intro w hw
  rw [sweepStep_words] at hw
  cases hseg : seg.words with
  | none => rw [hseg] at hw; simp at hw
  | some ws =>
    rw [hseg] at hw
    simp only [Option.map_some', Option.getD_some] at hw
    exact boundWords_round _ _ ws w (List.mem_of_mem_filter hw)

lemma normalize_nonneg_or_eq (dur : Option ℚ) (l : List Segment) (cursor : ℚ)
    (hcur : dur = none → 0 ≤ cursor) :
    ∀ s ∈ sweepSegments dur cursor l, 0 ≤ s.start ∨ s.start = s.stop := by
  refine sweepSegments_forall dur (fun c => dur = none → 0 ≤ c) _ ?_ ?_ l cursor hcur
  · intro c nxt seg hc
    rcases dur with _ | d
    · left
      have h0 : 0 ≤ c := hc rfl
      show (0 : ℚ) ≤ roundTo2 (sweepStart2 none c seg)
      refine roundTo2_nonneg ?_
      have := durClamp_le_start2 none c seg
      dsimp [durClamp] at this
      linarith
    · rcases le_total (max (sweepStart0 c seg) 0) d with h | h
      · left
        show (0 : ℚ) ≤ roundTo2 (sweepStart2 (some d) c seg)
        refine roundTo2_nonneg ?_
        dsimp [sweepStart2, clamp]
        rw [min_eq_left h]
        exact le_max_right _ _
      · right
        have hs2 : sweepStart2 (some d) c seg = d := by
          dsimp [sweepStart2, clamp]
          exact min_eq_right h
        have he2 : sweepEnd2 (some d) c nxt seg = d := by
          dsimp [sweepEnd2, clamp]
          rw [hs2]
          refine min_eq_right ?_
          exact le_trans (by linarith [minSeg_pos]) (le_max_right _ _)
        show roundTo2 (sweepStart2 (some d) c seg) = roundTo2 (sweepEnd2 (some d) c nxt seg)
        rw [hs2, he2]
  · intro c nxt seg hc hnone
    subst hnone
    have h0 : 0 ≤ c := hc rfl
    show (0 : ℚ) ≤ sweepEnd2 none c nxt seg
    calc (0 : ℚ) ≤ c := h0
      _ ≤ sweepStart0 c seg := sweepStart0_ge_cursor c seg
      _ ≤ sweepEnd1 c nxt seg := sweepStart0_le_end1 c nxt seg
      _ = sweepEnd2 none c nxt seg := rfl

lemma normalize_word_bounds (dur : Option ℚ) (l : List Segment) (cursor : ℚ) :
    ∀ s ∈ sweepSegments dur cursor l, ∀ w ∈ wordsOf s,
      s.start ≤ w.start ∧ w.stop ≤ s.stop ∧
        (w.start + MIN_WORD_DURATION ≤ w.stop ∨ w.stop = s.stop) := by
  refine sweepSegments_forall dur (fun _ => True) _ ?_ (fun _ _ _ _ => trivial) l cursor trivial
  intro c nxt seg _
  intro w hw
  rw [sweepStep_words] at hw
  cases hseg : seg.words with
  | none => rw [hseg] at hw; simp at hw
  | some ws =>
    rw [hseg] at hw
    simp only [Option.map_some', Option.getD_some] at hw
    have hlohi := start2_le_end2 dur c nxt seg
    have hfacts := boundWords_bounds _ _ hlohi ws w (List.mem_of_mem_filter hw)
    exact ⟨hfacts.1, hfacts.2.1, hfacts.2.2⟩

/-! ## Re-normalization identity (toward C4) -/

lemma segment_ext {a b : Segment} (h1 : a.text = b.text) (h2 : a.start = b.start)
    (h3 : a.stop = b.stop) (h4 : a.words = b.words) : a = b := by
  cases a
  cases b
  simp_all

lemma sanitizeWord_start (w : Word) : (sanitizeWord w).start = w.start := by
  unfold sanitizeWord
  split_ifs <;> rfl

lemma boundWordLast_id {lo hi : ℚ} {w : Word}
    (hr : roundTo2 w.start = w.start) (hhi : roundTo2 hi = hi)
    (hlo : lo ≤ w.start) (hlt : w.start < hi) (hstop : w.stop = hi) :
    boundWordLast lo hi (sanitizeWord w) = w := by
  unfold boundWordLast
  dsimp only
  rw [sanitizeWord_start, clamp_eq_self hlo (le_of_lt hlt), hr, hhi, ← hstop]
  unfold sanitizeWord
  split_ifs <;> rfl

lemma boundWordMid_id {lo hi : ℚ} {w : Word}
    (hrs : roundTo2 w.start = w.start) (hre : roundTo2 w.stop = w.stop) (hhi : roundTo2 hi = hi)
    (hlo : lo ≤ w.start) (hstophi : w.stop ≤ hi) (hlt : w.start < hi)
    (hdisj : w.start + MIN_WORD_DURATION ≤ w.stop ∨ w.stop = hi) :
    boundWordMid lo hi (sanitizeWord w) = w := by
  by_cases hcase : w.stop - w.start < MIN_WORD_DURATION
  · have hstop : w.stop = hi := by
      rcases hdisj with h | h
      · linarith
      · exact h
    have hsw : sanitizeWord w = { w with stop := w.start + MIN_WORD_DURATION } := by
      unfold sanitizeWord
      rw [if_pos hcase]
    unfold boundWordMid
    rw [hsw]
    dsimp only
    rw [clamp_eq_self hlo (le_of_lt hlt)]
    have hwe0 : clamp (w.start + MIN_WORD_DURATION) (w.start + MIN_WORD_DURATION) hi = hi := by
      unfold clamp
      rw [max_self]
      exact min_eq_right (by linarith)
    rw [hwe0, if_pos (by linarith), min_eq_left (by linarith : hi ≤ w.start + MIN_WORD_DURATION),
      hrs, hhi, ← hstop]
  · have hge : w.start + MIN_WORD_DURATION ≤ w.stop := by linarith
    have hsw : sanitizeWord w = w := by
      unfold sanitizeWord
      rw [if_neg hcase]
    unfold boundWordMid
    rw [hsw]
    dsimp only
    rw [clamp_eq_self hlo (le_of_lt hlt), clamp_eq_self hge hstophi,
      if_neg (by linarith : ¬ w.stop - w.start < MIN_WORD_DURATION), hrs, hre]

lemma boundWords_id (lo hi : ℚ) (hhi : roundTo2 hi = hi) :
    ∀ ws : List Word,
      (∀ w ∈ ws, roundTo2 w.start = w.start ∧ roundTo2 w.stop = w.stop) →
      (∀ w ∈ ws, lo ≤ w.start ∧ w.stop ≤ hi ∧ w.start < hi ∧
        (w.start + MIN_WORD_DURATION ≤ w.stop ∨ w.stop = hi)) →
      (∀ w ∈ ws.getLast?.toList, w.stop = hi) →
      (boundWords lo hi (ws.map sanitizeWord)).filter (fun w => decide (w.start < hi)) = ws := by
  intro ws
  induction ws with
  | nil => intro _ _ _; rfl
  | cons a t ih =>
    intro hr hb hlast
    cases t with
    | nil =>
      have ha := hb a (by simp)
      have hastop : a.stop = hi := by
        apply hlast
        simp [List.getLast?]
      show (boundWords lo hi [sanitizeWord a]).filter (fun w => decide (w.start < hi)) = [a]
      rw [show boundWords lo hi [sanitizeWord a] = [boundWordLast lo hi (sanitizeWord a)] from
        rfl]
      rw [boundWordLast_id (hr a (by simp)).1 hhi ha.1 ha.2.2.1 hastop]
      simp [List.filter, ha.2.2.1]
    | cons b t2 =>
      have ha := hb a (by simp)
      have hmid := boundWordMid_id (hr a (by simp)).1 (hr a (by simp)).2 hhi ha.1 ha.2.1
        ha.2.2.1 ha.2.2.2
      show (boundWords lo hi
          (sanitizeWord a :: sanitizeWord b :: t2.map sanitizeWord)).filter
          (fun w => decide (w.start < hi)) = a :: b :: t2
      rw [show boundWords lo hi (sanitizeWord a :: sanitizeWord b :: t2.map sanitizeWord) =
        boundWordMid lo hi (sanitizeWord a) ::
          boundWords lo hi (sanitizeWord b :: t2.map sanitizeWord) from rfl]
      rw [hmid]
      rw [List.filter_cons_of_pos (by simpa using ha.2.2.1)]
      congr 1
      refine ih (fun w hw => hr w (List.mem_cons_of_mem _ hw))
        (fun w hw => hb w (List.mem_cons_of_mem _ hw)) ?_
      intro w hw
      apply hlast
      rw [List.getLast?_cons_cons]
      exact hw

lemma sanitizeSegment_start (s : Segment) : (sanitizeSegment s).start = s.start := rfl

lemma sanitizeSegment_text (s : Segment) : (sanitizeSegment s).text = s.text := rfl

lemma sanitizeSegment_words (s : Segment) :
    (sanitizeSegment s).words = s.words.map fun ws => ws.map sanitizeWord := rfl

lemma sanitizeSegment_stop_of_minDur {s : Segment}
    (h : s.start + MIN_SEGMENT_DURATION ≤ s.stop) : (sanitizeSegment s).stop = s.stop := by
  unfold sanitizeSegment
  dsimp only
  rw [if_neg (by linarith)]

lemma chain_start_le {l : List Segment}
    (hc : List.Chain' (fun a b : Segment => a.stop ≤ b.start) l)
    (hse : ∀ s ∈ l, s.start ≤ s.stop) : List.Chain' SegLE l := by
  induction l with
  | nil => simp
  | cons a t ih =>
    cases t with
    | nil => simp
    | cons b t2 =>
      rcases List.chain'_cons.mp hc with ⟨hab, ht⟩
      refine List.chain'_cons.mpr ⟨?_, ih ht fun s hs => hse s (List.mem_cons_of_mem _ hs)⟩
      exact le_trans (hse a (by simp)) hab

lemma sortSegments_of_chain {l : List Segment} (h : List.Chain' SegLE l) :
    sortSegments l = l :=
  List.Sorted.insertionSort_eq (List.chain'_iff_pairwise.mp h)

lemma sweepSegments_id (dur : Option ℚ) :
    ∀ (l : List Segment) (cursor : ℚ),
      (∀ s ∈ l, roundTo2 s.start = s.start ∧ roundTo2 s.stop = s.stop) →
      (∀ s ∈ l, ∀ w ∈ wordsOf s, roundTo2 w.start = w.start ∧ roundTo2 w.stop = w.stop) →
      (∀ s ∈ l, s.start + MIN_SEGMENT_DURATION ≤ s.stop) →
      List.Chain' (fun a b : Segment => a.stop ≤ b.start) l →
      (∀ s ∈ l, 0 ≤ s.start) →
      (∀ d, dur = some d → ∀ s ∈ l, s.stop ≤ d) →
      (∀ s ∈ l, ∀ w ∈ wordsOf s, s.start ≤ w.start ∧ w.stop ≤ s.stop ∧ w.start < s.stop ∧
        (w.start + MIN_WORD_DURATION ≤ w.stop ∨ w.stop = s.stop)) →
      (∀ s ∈ l, ∀ w ∈ (wordsOf s).getLast?.toList, w.stop = s.stop) →
      (∀ s, l.head? = some s → cursor ≤ s.start) →
      sweepSegments dur cursor (l.map sanitizeSegment) = l := by
  intro l
  induction l with
  | nil => intro cursor _ _ _ _ _ _ _ _ _; rfl
  | cons s rest ih =>
    intro cursor hr hwr hdd hchain hz hdur hwb hlast hc
    have hsr := (hr s (by simp))
    have hsd := hdd s (by simp)
    have hsz := hz s (by simp)
    have hcs : cursor ≤ s.start := hc s rfl
    have hnx : (((rest.map sanitizeSegment).head?).map Segment.start) =
        rest.head?.map Segment.start := by
      cases rest <;> rfl
    have hstart0 : sweepStart0 cursor (sanitizeSegment s) = s.start := by
      unfold sweepStart0
      rw [sanitizeSegment_start]
      exact max_eq_left hcs
    have hnextge : ∀ r t, rest = r :: t → s.stop ≤ r.start := by
      intro r t hrt
      subst hrt
      exact (List.chain'_cons.mp hchain).1
    have hend1 : sweepEnd1 cursor (rest.head?.map Segment.start) (sanitizeSegment s) =
        s.stop := by
      rcases hrest : rest with _ | ⟨r, t⟩
      · dsimp [sweepEnd1]
        rw [hstart0, sanitizeSegment_stop_of_minDur hsd]
        exact max_eq_left (by linarith)
      · have hge := hnextge r t hrest
        dsimp [sweepEnd1]
        rw [hstart0, sanitizeSegment_stop_of_minDur hsd,
          max_eq_left (by linarith : s.start + MIN_SEGMENT_DURATION ≤ s.stop),
          if_pos (by linarith [minSeg_pos] : s.start < r.start)]
        exact min_eq_left hge
    have hstart2 : sweepStart2 dur cursor (sanitizeSegment s) = s.start := by
      rcases dur with _ | d
      · exact hstart0
      · have hsle : s.start ≤ d := by
          have := hdur d rfl s (by simp)
          linarith [minSeg_pos]
        dsimp [sweepStart2]
        rw [hstart0]
        exact clamp_eq_self hsz hsle
    have hend2 : sweepEnd2 dur cursor (rest.head?.map Segment.start) (sanitizeSegment s) =
        s.stop := by
      rcases dur with _ | d
      · exact hend1
      · have hsle : s.stop ≤ d := hdur d rfl s (by simp)
        dsimp [sweepEnd2]
        rw [hend1, hstart2]
        exact clamp_eq_self (by linarith) hsle
    have hkey : (sweepStep dur cursor (((rest.map sanitizeSegment).head?).map Segment.start)
        (sanitizeSegment s)).1 = s := by
      rw [hnx]
      refine segment_ext (sanitizeSegment_text s) ?_ ?_ ?_
      · show roundTo2 (sweepStart2 dur cursor (sanitizeSegment s)) = s.start
        rw [hstart2]
        exact hsr.1
      · show roundTo2 (sweepEnd2 dur cursor (rest.head?.map Segment.start)
          (sanitizeSegment s)) = s.stop
        rw [hend2]
        exact hsr.2
      · show ((sanitizeSegment s).words.map fun ws =>
          (boundWords (sweepStart2 dur cursor (sanitizeSegment s))
            (sweepEnd2 dur cursor (rest.head?.map Segment.start) (sanitizeSegment s)) ws).filter
              fun w => decide (w.start <
                sweepEnd2 dur cursor (rest.head?.map Segment.start) (sanitizeSegment s))) =
          s.words
        rw [hstart2, hend2, sanitizeSegment_words]
        cases hws : s.words with
        | none => rfl
        | some ws =>
          simp only [Option.map_some']
          congr 1
          refine boundWords_id s.start s.stop hsr.2 ws ?_ ?_ ?_
          · intro w hw
            exact hwr s (by simp) w (by simp [wordsOf, hws, hw])
          · intro w hw
            exact hwb s (by simp) w (by simp [wordsOf, hws, hw])
          · intro w hw
            refine hlast s (by simp) w ?_
            simpa [wordsOf, hws] using hw
    have hcursor2 : (sweepStep dur cursor (((rest.map sanitizeSegment).head?).map Segment.start)
        (sanitizeSegment s)).2 = s.stop := by
      show sweepEnd2 dur cursor (((rest.map sanitizeSegment).head?).map Segment.start)
        (sanitizeSegment s) = s.stop
      rw [hnx]
      exact hend2
    have hunfold : sweepSegments dur cursor ((s :: rest).map sanitizeSegment) =
        (sweepStep dur cursor (((rest.map sanitizeSegment).head?).map Segment.start)
          (sanitizeSegment s)).1 ::
          sweepSegments dur
            (sweepStep dur cursor (((rest.map sanitizeSegment).head?).map Segment.start)
              (sanitizeSegment s)).2 (rest.map sanitizeSegment) := rfl
    rw [hunfold, hkey, hcursor2]
    congr 1
    refine ih s.stop (fun x hx => hr x (List.mem_cons_of_mem _ hx))
      (fun x hx => hwr x (List.mem_cons_of_mem _ hx))
      (fun x hx => hdd x (List.mem_cons_of_mem _ hx)) hchain.tail
      (fun x hx => hz x (List.mem_cons_of_mem _ hx))
      (fun d hdd2 x hx => hdur d hdd2 x (List.mem_cons_of_mem _ hx))
      (fun x hx => hwb x (List.mem_cons_of_mem _ hx))
      (fun x hx => hlast x (List.mem_cons_of_mem _ hx)) ?_
    intro x hx
    rcases hrest : rest with _ | ⟨r, t⟩
    · rw [hrest] at hx
      simp at hx
    · rw [hrest] at hx
      simp only [List.head?_cons, Option.some.injEq] at hx
      rw [← hx]
      exact hnextge r t hrest

/-- Counterexample for C4 as stated: on the input `[{0, 1}, {0.004, 1}]`
with no total duration, the first pass yields `[{0, 0}, {0, 1}]` (the first
segment's end is capped at the next start 0.004, which rounds to 0), and
re-normalizing that output yields `[{0, 0.2}, {0.2, 1}]` — a different
list. -/
theorem claim_C4_counterexample :
    normalizeSegments
        (normalizeSegments [⟨"a", 0, 1, none⟩, ⟨"b", 1/250, 1, none⟩] none) none ≠
      normalizeSegments [⟨"a", 0, 1, none⟩, ⟨"b", 1/250, 1, none⟩] none := by
  with_unfolding_all decide

/-- C4 (amended): `normalizeSegments` is idempotent on every input whose
first normalization already satisfies the normalized invariants — every
output segment has duration at least `MIN_SEGMENT_DURATION`, every retained
word starts strictly before its segment's end, the total duration (when
given) is at least every output segment's end, and each segment's last word
ends exactly at the segment end.  (The counterexample shows the first
condition can fail, and with it idempotence.) -/
theorem claim_C4 (segments : List Segment) (dur : Option ℚ)
    (h1 : ∀ s ∈ normalizeSegments segments dur, s.start + MIN_SEGMENT_DURATION ≤ s.stop)
    (h2 : ∀ s ∈ normalizeSegments segments dur, ∀ w ∈ wordsOf s, w.start < s.stop)
    (h3 : ∀ d, dur = some d → ∀ s ∈ normalizeSegments segments dur, s.stop ≤ d)
    (h4 : ∀ s ∈ normalizeSegments segments dur,
      ∀ w ∈ (wordsOf s).getLast?.toList, w.stop = s.stop) :
    normalizeSegments (normalizeSegments segments dur) dur =
      normalizeSegments segments dur := by
  have hround := normalize_round dur (sortSegments (segments.map sanitizeSegment)) 0
  have hchain := (sweepSegments_facts dur (sortSegments (segments.map sanitizeSegment)) 0).2.1
  have hse := (sweepSegments_facts dur (sortSegments (segments.map sanitizeSegment)) 0).2.2
  have hpc := normalize_nonneg_or_eq dur (sortSegments (segments.map sanitizeSegment)) 0
    (fun _ => le_refl 0)
  have hpd := normalize_word_bounds dur (sortSegments (segments.map sanitizeSegment)) 0
  have hnorm : normalizeSegments segments dur =
      sweepSegments dur 0 (sortSegments (segments.map sanitizeSegment)) := rfl
  rw [← hnorm] at hround hchain hse hpc hpd
  have hz : ∀ s ∈ normalizeSegments segments dur, 0 ≤ s.start := by
    intro s hs
    rcases hpc s hs with h | h
    · exact h
    · exfalso
      have h1s := h1 s hs
      rw [← h] at h1s
      linarith [minSeg_pos]
  have hsorted : sortSegments ((normalizeSegments segments dur).map sanitizeSegment) =
      (normalizeSegments segments dur).map sanitizeSegment := by
    apply sortSegments_of_chain
    rw [List.chain'_map]
    exact (chain_start_le hchain hse).imp fun a b h => h
  show sweepSegments dur 0
      (sortSegments ((normalizeSegments segments dur).map sanitizeSegment)) =
    normalizeSegments segments dur
  rw [hsorted]
  refine sweepSegments_id dur (normalizeSegments segments dur) 0
    (fun s hs => ⟨(hround s hs).1, (hround s hs).2.1⟩)
    (fun s hs => (hround s hs).2.2) h1 hchain hz h3
    (fun s hs w hw => ⟨(hpd s hs w hw).1, (hpd s hs w hw).2.1, h2 s hs w hw,
      (hpd s hs w hw).2.2⟩)
    h4 ?_
  intro s hs
  exact hz s (List.mem_of_mem_head? hs)

/-- Witness for C4 on a concrete input whose normalization satisfies the
invariants. -/
theorem claim_C4_witness :
    normalizeSegments
        (normalizeSegments [⟨"a", 0, 0.5, some [⟨"w", 0, 0.5⟩]⟩] none) none =
      normalizeSegments [⟨"a", 0, 0.5, some [⟨"w", 0, 0.5⟩]⟩] none :=
  claim_C4 [⟨"a", 0, 0.5, some [⟨"w", 0, 0.5⟩]⟩] none
    (by with_unfolding_all decide)
    (by with_unfolding_all decide)
    (fun d h => nomatch h)
    (by with_unfolding_all decide)

/-! ## Lemmas for getVisibleSubtitles (C6) -/

/-- `candLE` characterized as a lexicographic order: active flag first, then
score descending, then earliest start descending. -/
lemma candLE_iff (a b : Candidate) : candLE a b = true ↔
    (a.hasActiveWord = true ∧ b.hasActiveWord = false) ∨
    (a.hasActiveWord = b.hasActiveWord ∧ b.score < a.score) ∨
    (a.hasActiveWord = b.hasActiveWord ∧ a.score = b.score ∧
      b.earliestStart.getD 0 ≤ a.earliestStart.getD 0) := by
  cases ha : a.hasActiveWord <;> cases hb : b.hasActiveWord <;>
    by_cases hs : a.score = b.score <;>
      simp [candLE, ha, hb, hs]

instance : IsTotal Candidate CandLEP := by
  constructor
  intro a b
  unfold CandLEP
  rw [candLE_iff, candLE_iff]
  rcases eq_or_ne a.hasActiveWord b.hasActiveWord with hf | hf
  · rcases lt_trichotomy a.score b.score with h | h | h
    · exact Or.inr (Or.inr (Or.inl ⟨hf.symm, h⟩))
    · rcases le_total (a.earliestStart.getD 0) (b.earliestStart.getD 0) with he | he
      · exact Or.inr (Or.inr (Or.inr ⟨hf.symm, h.symm, he⟩))
      · exact Or.inl (Or.inr (Or.inr ⟨hf, h, he⟩))
    · exact Or.inl (Or.inr (Or.inl ⟨hf, h⟩))
  · cases ha : a.hasActiveWord <;> cases hb : b.hasActiveWord
    · rw [ha, hb] at hf; exact absurd rfl hf
    · exact Or.inr (Or.inl ⟨rfl, rfl⟩)
    · exact Or.inl (Or.inl ⟨rfl, rfl⟩)
    · rw [ha, hb] at hf; exact absurd rfl hf

instance : IsTrans Candidate CandLEP := by
  constructor
  intro a b c hab hbc
  unfold CandLEP at hab hbc ⊢
  rw [candLE_iff] at hab hbc ⊢
  rcases hab with ⟨ha1, hb1⟩ | ⟨hf1, hs1⟩ | ⟨hf1, hs1, he1⟩ <;>
    rcases hbc with ⟨hb2, hc2⟩ | ⟨hf2, hs2⟩ | ⟨hf2, hs2, he2⟩
  · rw [hb1] at hb2; exact Bool.noConfusion hb2
  · exact Or.inl ⟨ha1, hf2.symm.trans hb1⟩
  · exact Or.inl ⟨ha1, hf2.symm.trans hb1⟩
  · exact Or.inl ⟨hf1.trans hb2, hc2⟩
  · exact Or.inr (Or.inl ⟨hf1.trans hf2, lt_trans hs2 hs1⟩)
  · exact Or.inr (Or.inl ⟨hf1.trans hf2, by rw [← hs2]; exact hs1⟩)
  · exact Or.inl ⟨hf1.trans hb2, hc2⟩
  · exact Or.inr (Or.inl ⟨hf1.trans hf2, by rw [hs1]; exact hs2⟩)
  · exact Or.inr (Or.inr ⟨hf1.trans hf2, hs1.trans hs2, le_trans he2 he1⟩)

/-- `scanWord` never changes the candidate's subtitle. -/
lemma scanWord_subtitle (T : ℚ) (st : Candidate) (w : Word) :
    (scanWord T st w).subtitle = st.subtitle := by
  unfold scanWord
  dsimp only
  split
  · rfl
  split
  · rfl
  split
  · split
    · rfl
    · rfl
  · rfl

/-- `scanWord` updates the running minimum of word starts. -/
lemma scanWord_earliestStart (T : ℚ) (st : Candidate) (w : Word) :
    (scanWord T st w).earliestStart = optMin st.earliestStart w.start := by
  unfold scanWord
  dsimp only
  split
  · rfl
  split
  · rfl
  split
  · split
    · rfl
    · rfl
  · rfl

/-- `scanWord` updates the running maximum of word ends. -/
lemma scanWord_latestEnd (T : ℚ) (st : Candidate) (w : Word) :
    (scanWord T st w).latestEnd = optMax st.latestEnd w.stop := by
  unfold scanWord
  dsimp only
  split
  · rfl
  split
  · rfl
  split
  · split
    · rfl
    · rfl
  · rfl

/-- `scanWord` never decreases the score. -/
lemma scanWord_score_le (T : ℚ) (st : Candidate) (w : Word) :
    st.score ≤ (scanWord T st w).score := by
  unfold scanWord
  dsimp only
  split
  · dsimp only; linarith
  split
  · dsimp only; linarith
  split
  · split
    · dsimp only; linarith
    · exact le_refl _
  · exact le_refl _

/-- `scanWord` never clears the active-word flag. -/
lemma scanWord_flag_mono (T : ℚ) (st : Candidate) (w : Word)
    (h : st.hasActiveWord = true) : (scanWord T st w).hasActiveWord = true := by
  unfold scanWord
  dsimp only
  split
  · rfl
  split
  · exact h
  split
  · split
    · exact h
    · exact h
  · exact h

/-- `scanWord` sets the active-word flag on an active word. -/
lemma scanWord_flag_active (T : ℚ) (st : Candidate) (w : Word)
    (h1 : w.start ≤ T) (h2 : T ≤ w.stop) :
    (scanWord T st w).hasActiveWord = true := by
  unfold scanWord
  dsimp only
  split
  · rfl
  · rename_i hA
    exact absurd ⟨h1, h2⟩ hA

/-- The word fold never changes the subtitle. -/
lemma foldl_scanWord_subtitle (T : ℚ) (ws : List Word) (st : Candidate) :
    (ws.foldl (scanWord T) st).subtitle = st.subtitle := by
  induction ws generalizing st with
  | nil => rfl
  | cons w ws ih => rw [List.foldl_cons, ih, scanWord_subtitle]

/-- The word fold never decreases the score. -/
lemma foldl_score_mono (T : ℚ) (ws : List Word) (st : Candidate) :
    st.score ≤ (ws.foldl (scanWord T) st).score := by
  induction ws generalizing st with
  | nil => exact le_refl _
  | cons w ws ih => exact le_trans (scanWord_score_le T st w) (ih (scanWord T st w))

/-- The word fold never clears the active-word flag. -/
lemma foldl_flag_mono (T : ℚ) (ws : List Word) (st : Candidate)
    (h : st.hasActiveWord = true) :
    (ws.foldl (scanWord T) st).hasActiveWord = true := by
  induction ws generalizing st with
  | nil => exact h
  | cons w ws ih => exact ih _ (scanWord_flag_mono T st w h)

/-- A word active at the adjusted time sets the flag for good. -/
lemma foldl_scanWord_active (T : ℚ) (ws : List Word) (st : Candidate)
    (w : Word) (hw : w ∈ ws) (h1 : w.start ≤ T) (h2 : T ≤ w.stop) :
    (ws.foldl (scanWord T) st).hasActiveWord = true := by
  induction ws generalizing st with
  | nil => cases hw
  | cons w' ws ih =>
    rcases List.mem_cons.mp hw with rfl | hw'
    · exact foldl_flag_mono T ws _ (scanWord_flag_active T st w h1 h2)
    · exact ih _ hw'

/-- `optMin` always yields a value at most its rational argument. -/
lemma optMin_le (o : Option ℚ) (x : ℚ) : ∃ y, optMin o x = some y ∧ y ≤ x := by
  cases o with
  | none => exact ⟨x, rfl, le_refl x⟩
  | some a => exact ⟨min a x, rfl, min_le_right a x⟩

/-- `optMax` always yields a value at least its rational argument. -/
lemma optMax_ge (o : Option ℚ) (x : ℚ) : ∃ y, optMax o x = some y ∧ x ≤ y := by
  cases o with
  | none => exact ⟨x, rfl, le_refl x⟩
  | some a => exact ⟨max a x, rfl, le_max_right a x⟩

/-- Once the running minimum is set, the fold only lowers it. -/
lemma foldl_earliest_le (T : ℚ) (ws : List Word) (st : Candidate) (a : ℚ)
    (h : st.earliestStart = some a) :
    ∃ es, (ws.foldl (scanWord T) st).earliestStart = some es ∧ es ≤ a := by
  induction ws generalizing st a with
  | nil => exact ⟨a, h, le_refl a⟩
  | cons w ws ih =>
    have h2 : (scanWord T st w).earliestStart = some (min a w.start) := by
      rw [scanWord_earliestStart, h]; rfl
    obtain ⟨es, h3, h4⟩ := ih _ _ h2
    exact ⟨es, h3, le_trans h4 (min_le_left _ _)⟩

/-- Once the running maximum is set, the fold only raises it. -/
lemma foldl_latest_ge (T : ℚ) (ws : List Word) (st : Candidate) (a : ℚ)
    (h : st.latestEnd = some a) :
    ∃ lv, (ws.foldl (scanWord T) st).latestEnd = some lv ∧ a ≤ lv := by
  induction ws generalizing st a with
  | nil => exact ⟨a, h, le_refl a⟩
  | cons w ws ih =>
    have h2 : (scanWord T st w).latestEnd = some (max a w.stop) := by
      rw [scanWord_latestEnd, h]; rfl
    obtain ⟨lv, h3, h4⟩ := ih _ _ h2
    exact ⟨lv, h3, le_trans (le_max_left _ _) h4⟩

/-- After the fold, the running min/max are set and bracket every word of
the list. -/
lemma foldl_scanWord_bounds (T : ℚ) (ws : List Word) (st : Candidate)
    (w : Word) (hw : w ∈ ws) :
    ∃ es lv, (ws.foldl (scanWord T) st).earliestStart = some es ∧
      (ws.foldl (scanWord T) st).latestEnd = some lv ∧
      es ≤ w.start ∧ w.stop ≤ lv := by
  induction ws generalizing st with
  | nil => cases hw
  | cons w' ws ih =>
    rcases List.mem_cons.mp hw with rfl | hw'
    · obtain ⟨x, hx, hxle⟩ := optMin_le st.earliestStart w.start
      obtain ⟨es, h1, h2⟩ := foldl_earliest_le T ws (scanWord T st w) x
        (by rw [scanWord_earliestStart, hx])
      obtain ⟨y, hy, hyge⟩ := optMax_ge st.latestEnd w.stop
      obtain ⟨lv, h3, h4⟩ := foldl_latest_ge T ws (scanWord T st w) y
        (by rw [scanWord_latestEnd, hy])
      exact ⟨es, lv, h1, h3, le_trans h2 hxle, le_trans hyge h4⟩
    · exact ih _ hw'

/-- The candidate built for a subtitle carries that subtitle. -/
lemma evalCandidate_subtitle (T : ℚ) (sub : Segment) :
    (evalCandidate T sub).subtitle = sub := by
  unfold evalCandidate
  dsimp only
  split <;> (try split) <;> (try split) <;> (try split) <;>
    simp [foldl_scanWord_subtitle]

/-- A subtitle with a word active at the adjusted time passes the range
check, keeps its flag, and scores at least 100. -/
lemma evalCandidate_active (T : ℚ) (sub : Segment) (ws : List Word)
    (hws : sub.words = some ws) (w : Word) (hw : w ∈ ws)
    (h1 : w.start ≤ T) (h2 : T ≤ w.stop) :
    (evalCandidate T sub).hasActiveWord = true ∧
      100 ≤ (evalCandidate T sub).score := by
  have hlen : 0 < ws.length := List.length_pos.mpr (List.ne_nil_of_mem hw)
  unfold evalCandidate
  rw [hws]
  dsimp only
  rw [if_pos hlen]
  obtain ⟨es, lv, he, hl, hes, hlv⟩ :=
    foldl_scanWord_bounds T ws
      ⟨sub, 0, false, 0, none, none⟩ w hw
  have hflag :=
    foldl_scanWord_active T ws
      (⟨sub, 0, false, 0, none, none⟩ : Candidate) w hw h1 h2
  have hscore :=
    foldl_score_mono T ws (⟨sub, 0, false, 0, none, none⟩ : Candidate)
  rw [he, hl]
  dsimp only
  have hbuf : (0:ℚ) < TIMING_BUFFER := by norm_num [TIMING_BUFFER]
  have hrange : T ≥ es - TIMING_BUFFER ∧ T ≤ lv + 0.1 := by
    constructor
    · have : es ≤ T := le_trans hes h1
      linarith
    · have : T ≤ lv := le_trans h2 hlv
      linarith
  rw [if_neg (not_not_intro hrange)]
  rw [if_pos hflag]
  refine ⟨hflag, ?_⟩
  have h0 : (0:ℚ) ≤ (List.foldl (scanWord T)
      (⟨sub, 0, false, 0, none, none⟩ : Candidate) ws).score := hscore
  split
  · dsimp only; linarith
  · dsimp only; linarith

/-- C6: for every caption list and time `t`, `getVisibleSubtitles` returns
at most one caption; and whenever some caption has a word active at the
buffered time `t + 0.05`, the returned caption is one the scorer flags as
active (never one that is merely about to appear, whose flag is unset). -/
theorem claim_C6 (subtitles : List Segment) (t : ℚ) :
    (getVisibleSubtitles subtitles t).length ≤ 1 ∧
    ((∃ sub ∈ subtitles, ∃ ws, sub.words = some ws ∧ ∃ w ∈ ws,
        w.start ≤ t + TIMING_BUFFER ∧ t + TIMING_BUFFER ≤ w.stop) →
      ∃ s, getVisibleSubtitles subtitles t = [s] ∧
        (evalCandidate (t + TIMING_BUFFER) s).hasActiveWord = true) := by
  constructor
  · unfold getVisibleSubtitles
    dsimp only
    split <;> simp
  · rintro ⟨sub, hsub, ws, hws, w, hw, h1, h2⟩
    have hact := evalCandidate_active (t + TIMING_BUFFER) sub ws hws w hw h1 h2
    have hmem : evalCandidate (t + TIMING_BUFFER) sub ∈
        ((subtitles.map (evalCandidate (t + TIMING_BUFFER))).filter
          fun c => decide (0 < c.score)) := by
      refine List.mem_filter.mpr ⟨List.mem_map.mpr ⟨sub, hsub, rfl⟩, ?_⟩
      simp only [decide_eq_true_eq]
      linarith [hact.2]
    have hmem2 : evalCandidate (t + TIMING_BUFFER) sub ∈
        List.insertionSort CandLEP
          ((subtitles.map (evalCandidate (t + TIMING_BUFFER))).filter
            fun c => decide (0 < c.score)) :=
      (List.Perm.mem_iff (List.perm_insertionSort _ _)).mpr hmem
    have hsorted : List.Sorted CandLEP
        (List.insertionSort CandLEP
          ((subtitles.map (evalCandidate (t + TIMING_BUFFER))).filter
            fun c => decide (0 < c.score))) :=
      List.sorted_insertionSort CandLEP _
    unfold getVisibleSubtitles
    dsimp only
    split
    · rename_i hnil
      rw [hnil] at hmem2
      cases hmem2
    · rename_i c rest hcons
      refine ⟨c.subtitle, rfl, ?_⟩
      rw [hcons] at hsorted hmem2
      have hcflag : c.hasActiveWord = true := by
        rcases List.mem_cons.mp hmem2 with heq | hrest
        · rw [← heq]; exact hact.1
        · have hle : CandLEP c (evalCandidate (t + TIMING_BUFFER) sub) :=
            (List.sorted_cons.mp hsorted).1 _ hrest
          rcases (candLE_iff _ _).mp hle with ⟨hc, _⟩ | ⟨hc, _⟩ | ⟨hc, _, _⟩
          · exact hc
          · exact hc.trans hact.1
          · exact hc.trans hact.1
      have hc_mem : c ∈ ((subtitles.map (evalCandidate (t + TIMING_BUFFER))).filter
          fun c => decide (0 < c.score)) := by
        have hcs : c ∈ List.insertionSort CandLEP
            ((subtitles.map (evalCandidate (t + TIMING_BUFFER))).filter
              fun c => decide (0 < c.score)) := by
          rw [hcons]; exact List.mem_cons_self _ _
        exact (List.Perm.mem_iff (List.perm_insertionSort _ _)).mp hcs
      obtain ⟨sub', hsub', heq'⟩ := List.mem_map.mp (List.mem_filter.mp hc_mem).1
      rw [← heq', evalCandidate_subtitle, heq']
      exact hcflag

/-- Witness for C6: caption A has the active word at `t = 2`; caption B is
merely about to appear (it starts at 2.1, inside the buffer).  A is
selected. -/
theorem claim_C6_witness :
    ∃ s, getVisibleSubtitles
        [⟨"A", 1, 3, some [⟨"a", 1, 3⟩]⟩, ⟨"B", 21/10, 4, none⟩] 2 = [s] ∧
      (evalCandidate (2 + TIMING_BUFFER) s).hasActiveWord = true :=
  (claim_C6 [⟨"A", 1, 3, some [⟨"a", 1, 3⟩]⟩, ⟨"B", 21/10, 4, none⟩] 2).2
    ⟨⟨"A", 1, 3, some [⟨"a", 1, 3⟩]⟩, by simp, [⟨"a", 1, 3⟩], rfl,
      ⟨"a", 1, 3⟩, by simp, by norm_num [TIMING_BUFFER], by norm_num [TIMING_BUFFER]⟩
